import Mathlib

/-!
Shallow embedding of the interval-algebra core of the `lk_math` repository:
the pairwise `Interval` operations (`src/interval.rs`), the `IntervalSet`
container (`src/interval_set.rs`) and the bit-pattern ordering adapter for
floating-point domains (`src/ord_float.rs`), together with proofs about the
specified properties.

Rust's `std::ops::Range<T>` is embedded as the structure `Range` with fields
`start` and `stop` (the latter models Rust's `end`, a keyword in Lean).
Machine integers `i32` are embedded as `Int` with explicit two's-complement
wrapping (`wrap32`) where overflow matters, or as the bounded subtype `I32`
where the representable extremes matter.  `f32`/`f64` values are embedded via
their IEEE-754 bit patterns (a `Nat` below `2^32` / `2^64`).
-/

namespace LkMath

/-- Rust `std::ops::Range<T>`: the half-open interval `[start, stop)`.
`stop` models the Rust field `end`. -/
structure Range (T : Type) where
  start : T
  stop : T
deriving DecidableEq

/-- Rust `Ord::cmp` on a totally ordered domain. -/
def ordCmp {T : Type} [LinearOrder T] (x y : T) : Ordering :=
  if x < y then Ordering.lt else if y < x then Ordering.gt else Ordering.eq

/-- `Interval::interval_intersection` for `Range<T>` (src/interval.rs:84-101):
swap the two ranges if `a0 > b0`, return `None` if `a1 <= b0`, otherwise
`Some(b0..min(a1, b1))`. -/
def interval_intersection {T : Type} [LinearOrder T] (a b : Range T) : Option (Range T) :=
  let p := if b.start < a.start then (b, a) else (a, b)
  if p.1.stop ≤ p.2.start then none
  else some ⟨p.2.start, min p.1.stop p.2.stop⟩

/-- `Interval::interval_union` for `Range<T>` (src/interval.rs:103-117):
swap the two ranges if `a0 > b0`, return `None` if `a1 < b0`, otherwise
`Some(a0..max(a1, b1))`. -/
def interval_union {T : Type} [LinearOrder T] (a b : Range T) : Option (Range T) :=
  let p := if b.start < a.start then (b, a) else (a, b)
  if p.1.stop < p.2.start then none
  else some ⟨p.1.start, max p.1.stop p.2.stop⟩

/-- `Interval::overlaps` (src/interval.rs:119-123): `a1 > b0 && a0 < b1`. -/
def overlaps {T : Type} [LinearOrder T] (a b : Range T) : Bool :=
  decide (b.start < a.stop) && decide (a.start < b.stop)

/-- `Interval::touches` (src/interval.rs:125-129): `a1 >= b0 && a0 <= b1`. -/
def touches {T : Type} [LinearOrder T] (a b : Range T) : Bool :=
  decide (b.start ≤ a.stop) && decide (a.start ≤ b.stop)

/-- `Interval::dominates` (src/interval.rs:131-135): `a0 <= b0 && a1 >= b1`. -/
def dominates {T : Type} [LinearOrder T] (a b : Range T) : Bool :=
  decide (a.start ≤ b.start) && decide (b.stop ≤ a.stop)

/-- `IntervalExt::dominates_or_is_dominated_by` (src/interval.rs:150-154) read
over the unbounded integers: `(b0 - a0) * (b1 - a1) <= T::zero()`. -/
def dominates_or_is_dominated_by (a b : Range Int) : Bool :=
  decide ((b.start - a.start) * (b.stop - a.stop) ≤ 0)

/-- Two's-complement wrap-around of an unbounded integer into the `i32` range. -/
def wrap32 (n : Int) : Int := (n + 2 ^ 31) % 2 ^ 32 - 2 ^ 31

/-- `i32` subtraction (release-mode wrapping semantics). -/
def i32_sub (x y : Int) : Int := wrap32 (x - y)

/-- `i32` multiplication (release-mode wrapping semantics). -/
def i32_mul (x y : Int) : Int := wrap32 (x * y)

/-- `IntervalExt::dominates_or_is_dominated_by` evaluated in the fixed-width
`i32` domain: the subtractions and the product wrap to the `i32` range. -/
def dominates_or_is_dominated_by_i32 (a b : Range Int) : Bool :=
  decide (i32_mul (i32_sub b.start a.start) (i32_sub b.stop a.stop) ≤ 0)

/-- `IntervalSet<T>` (src/interval_set.rs:17-20): a vector of ranges. -/
structure IntervalSet (T : Type) where
  intervals : List (Range T)
deriving DecidableEq

/-- `IntervalSet::new` (src/interval_set.rs:23-25). -/
def IntervalSet.new (T : Type) : IntervalSet T := ⟨[]⟩

/-- `IntervalSet::intersect` (src/interval_set.rs:27-33): replace the stored
vector by the pointwise intersection with `interval`, dropping `None`s.
`Range::intersection` called there is the §4.1 `intersection` primitive,
i.e. `interval_intersection`. -/
def IntervalSet.intersect {T : Type} [LinearOrder T] (s : IntervalSet T)
    (interval : Range T) : IntervalSet T :=
  ⟨s.intervals.filterMap (fun x => interval_intersection x interval)⟩

/-- `IntervalSet::retain_intersecting` (src/interval_set.rs:36-43): keep the
stored intervals whose intersection with `interval` is `Some`. -/
def IntervalSet.retain_intersecting {T : Type} [LinearOrder T] (s : IntervalSet T)
    (interval : Range T) : IntervalSet T :=
  ⟨s.intervals.filter (fun x => (interval_intersection x interval).isSome)⟩

/-- The loop of Rust `slice::binary_search_by` with comparator
`|x| cmp(key x, target)`.  `fuel` bounds the iteration count (any
`fuel ≥ hi - lo` gives the loop's exact behaviour, since `hi - lo` shrinks
by at least one per iteration); the `Ok`/`Err` distinction is collapsed
because every call site takes the carried index from either constructor. -/
def bsearchGo {T : Type} [LinearOrder T] (keys : List T) (target : T) :
    Nat → Nat → Nat → Nat
  | 0, lo, _hi => lo
  | fuel + 1, lo, hi =>
    if lo < hi then
      match ordCmp (keys.getD ((lo + hi) / 2) target) target with
      | Ordering.lt => bsearchGo keys target fuel ((lo + hi) / 2 + 1) hi
      | Ordering.gt => bsearchGo keys target fuel lo ((lo + hi) / 2)
      | Ordering.eq => (lo + hi) / 2
    else lo

/-- `binary_search_by` over a whole list, collapsed over `Ok`/`Err`. -/
def bsearch {T : Type} [LinearOrder T] (keys : List T) (target : T) : Nat :=
  bsearchGo keys target keys.length 0 keys.length

/-- The merge phase of `IntervalSet::union` (src/interval_set.rs:85-116),
operating on the vector after the drain, at `index = index0`: try to merge
with the left neighbour, on success try to further absorb the right
neighbour; otherwise try the right neighbour alone; otherwise insert.
`Range::union` called there is the §4.1 `union` primitive, i.e.
`interval_union`. -/
def unionMerge {T : Type} [LinearOrder T] (l : List (Range T)) (index : Nat)
    (interval : Range T) : List (Range T) :=
  match (if 0 < index then (l.get? (index - 1)).bind (fun pre => interval_union pre interval)
         else none) with
  | some merged =>
    match (l.get? index).bind (fun x => interval_union x merged) with
    | some allThree => (l.eraseIdx index).set (index - 1) allThree
    | none => l.set (index - 1) merged
  | none =>
    match (l.get? index).bind (fun x => interval_union x interval) with
    | some post => l.set index post
    | none => l.insertIdx index interval

/-- `IntervalSet::union` (src/interval_set.rs:45-117). -/
def IntervalSet.union {T : Type} [LinearOrder T] (s : IntervalSet T)
    (interval : Range T) : IntervalSet T :=
  if interval.stop ≤ interval.start then s
  else if s.intervals.isEmpty then ⟨[interval]⟩
  else
    let index0 := bsearch (s.intervals.map Range.start) interval.start
    let index1 := bsearch (s.intervals.map Range.stop) interval.stop
    if index1 < index0 then s
    else
      ⟨unionMerge
        (if index0 < index1 then s.intervals.take index0 ++ s.intervals.drop index1
         else s.intervals)
        index0 interval⟩

/-- `IntervalSet::measure` (src/interval_set.rs:127-132) over the exact
integer domain: sum of `end - start`. -/
def IntervalSet.measure (s : IntervalSet Int) : Int :=
  (s.intervals.map (fun x => x.stop - x.start)).sum

/-- `IntervalSet::bounds` (src/interval_set.rs:134-141). -/
def IntervalSet.bounds {T : Type} (s : IntervalSet T) : Option (Range T) :=
  match s.intervals with
  | [] => none
  | x :: xs => some ⟨x.start, ((x :: xs).getLast (List.cons_ne_nil x xs)).stop⟩

/-- Modelled from the spec: the `UniversalInterval` trait consumed by
`IntervalSet::negation` is declared in the repository (`use
crate::interval::UniversalInterval`) but its definition is not among the
provided sources.  Per §3 of the spec it provides, for a domain type, the
minimum and maximum representable bounds (`INFINUM`/`SUPREMUM`), a
predicate for "is this value the domain's extreme bound" (equality with the
respective bound, per §4.3: "unless `first.start` already equals the
infimum"), and `universal_interval() = INFINUM..SUPREMUM`. -/
class UniversalInterval (T : Type) where
  INFINUM : T
  SUPREMUM : T

/-- The gap loop shared by `negation` and `negation_within_bounds`
(src/interval_set.rs:167-171 and 191-195): for `i in 0..count-1` push
`intervals[i].end .. intervals[i+1].start`. -/
def gapsList {T : Type} (l : List (Range T)) : List (Range T) :=
  List.zipWith (fun a b => Range.mk a.stop b.start) l l.tail

/-- List-level body of `IntervalSet::negation` (src/interval_set.rs:154-183). -/
def negList {T : Type} [DecidableEq T] [UniversalInterval T] :
    List (Range T) → List (Range T)
  | [] => [⟨UniversalInterval.INFINUM, UniversalInterval.SUPREMUM⟩]
  | x :: xs =>
    (if x.start = UniversalInterval.INFINUM then []
     else [⟨UniversalInterval.INFINUM, x.start⟩])
      ++ gapsList (x :: xs)
      ++ (if ((x :: xs).getLast (List.cons_ne_nil x xs)).stop = UniversalInterval.SUPREMUM
          then []
          else [⟨((x :: xs).getLast (List.cons_ne_nil x xs)).stop, UniversalInterval.SUPREMUM⟩])

/-- `IntervalSet::negation` (src/interval_set.rs:154-183). -/
def IntervalSet.negation {T : Type} [DecidableEq T] [UniversalInterval T]
    (s : IntervalSet T) : IntervalSet T :=
  ⟨negList s.intervals⟩

/-- `IntervalSet::negation_within_bounds` (src/interval_set.rs:185-201). -/
def IntervalSet.negation_within_bounds {T : Type} (s : IntervalSet T) : IntervalSet T :=
  match s.intervals with
  | [] => ⟨[]⟩
  | x :: xs => ⟨gapsList (x :: xs)⟩

/-- `IntervalSet::containing_interval` (src/interval_set.rs:205-222): binary
search the stored vector by `exclusive_max` against `value`; if the interval
at the resulting index contains `value` (`start <= value < end`, Rust
`Range::contains`), return it. -/
def IntervalSet.containing_interval {T : Type} [LinearOrder T] (s : IntervalSet T)
    (value : T) : Option (Range T) :=
  match s.intervals.get? (bsearch (s.intervals.map Range.stop) value) with
  | some a => if a.start ≤ value ∧ value < a.stop then some a else none
  | none => none

/-- `IntervalSet::contains` (src/interval_set.rs:224-226). -/
def IntervalSet.contains {T : Type} [LinearOrder T] (s : IntervalSet T) (value : T) : Bool :=
  (s.containing_interval value).isSome

/-- The documented `IntervalSet` invariant (spec §3): sorted ascending by
`start`, consecutive intervals separated by a strict gap
(`i.end < (i+1).start`), and no degenerate interval stored. -/
def IntervalSet.Invariant {T : Type} [LinearOrder T] (s : IntervalSet T) : Prop :=
  s.intervals.Pairwise (fun a b => a.start < b.start) ∧
  s.intervals.Chain' (fun a b => a.stop < b.start) ∧
  ∀ iv ∈ s.intervals, iv.start < iv.stop

/-- Working form of the invariant on the underlying list: every stored
interval is non-degenerate and any two (not merely consecutive) intervals
are separated by a strict gap. -/
def ValidList {T : Type} [LinearOrder T] (l : List (Range T)) : Prop :=
  (∀ iv ∈ l, iv.start < iv.stop) ∧ l.Pairwise (fun a b => a.stop < b.start)

/-- A point `v` is covered by some interval of the list. -/
def covL {T : Type} [LinearOrder T] (l : List (Range T)) (v : T) : Prop :=
  ∃ iv ∈ l, iv.start ≤ v ∧ v < iv.stop

/-- The `i32` domain: integers representable in 32-bit two's complement. -/
def I32 : Type := {n : Int // -(2 ^ 31) ≤ n ∧ n < 2 ^ 31}

instance : LinearOrder I32 := by unfold I32; infer_instance

instance : DecidableEq I32 := by unfold I32; infer_instance

/-- `i32::MIN`. -/
def i32Min : I32 := ⟨-(2 ^ 31), by norm_num⟩

/-- `i32::MAX`. -/
def i32Max : I32 := ⟨2 ^ 31 - 1, by norm_num⟩

/-- The `UniversalInterval` contract for `i32` (per the doc comment at
src/interval_set.rs:146-147: the most extreme values for `i32` are
`i32::MIN` and `i32::MAX`). -/
instance : UniversalInterval I32 where
  INFINUM := i32Min
  SUPREMUM := i32Max

/-- Magnitude of an IEEE-754 value with `F` fraction bits, given the bit
pattern `b` with the sign bit stripped, scaled by `2 ^ (bias + F - 1)` so it
is an integer: subnormals (`exp = 0`) give `frac`, every other exponent
gives `(2 ^ F + frac) * 2 ^ (exp - 1)`. -/
def floatMag (F : Nat) (b : Nat) : Nat :=
  if b / 2 ^ F = 0 then b % 2 ^ F else (2 ^ F + b % 2 ^ F) * 2 ^ (b / 2 ^ F - 1)

/-- `f32` NaN test on the bit pattern: exponent all ones, fraction nonzero. -/
def f32IsNaN (b : Nat) : Bool :=
  decide (b % 2 ^ 31 / 2 ^ 23 = 255) && decide (b % 2 ^ 23 ≠ 0)

/-- IEEE numeric value of an `f32` bit pattern `b < 2^32`, scaled by the
fixed positive factor `2^149` so it is an integer (infinities become finite
sentinels larger than every finite value, preserving IEEE order; NaN patterns
are excluded by hypothesis wherever this matters). -/
def f32ValScaled (b : Nat) : Int :=
  if b / 2 ^ 31 = 0 then (floatMag 23 (b % 2 ^ 31) : Int)
  else -(floatMag 23 (b % 2 ^ 31) : Int)

/-- `OrdF32::bits` (src/ord_float.rs:44-48): `to_bits() as i32`, i.e. the
bit pattern reinterpreted as a signed 32-bit integer. -/
def toSignedBits32 (b : Nat) : Int :=
  if b < 2 ^ 31 then (b : Int) else (b : Int) - 2 ^ 32

/-- `Ord::cmp for OrdF32` (src/ord_float.rs:64-68): integer comparison of the
sign-reinterpreted bit patterns. -/
def ordF32Cmp (a b : Nat) : Ordering :=
  ordCmp (toSignedBits32 a) (toSignedBits32 b)

/-- `f64` NaN test on the bit pattern: exponent all ones, fraction nonzero. -/
def f64IsNaN (b : Nat) : Bool :=
  decide (b % 2 ^ 63 / 2 ^ 52 = 2047) && decide (b % 2 ^ 52 ≠ 0)

/-- IEEE numeric value of an `f64` bit pattern `b < 2^64`, scaled by `2^1074`
so it is an integer. -/
def f64ValScaled (b : Nat) : Int :=
  if b / 2 ^ 63 = 0 then (floatMag 52 (b % 2 ^ 63) : Int)
  else -(floatMag 52 (b % 2 ^ 63) : Int)

/-- `OrdF64::bits` (src/ord_float.rs:44-48): `to_bits() as i64`. -/
def toSignedBits64 (b : Nat) : Int :=
  if b < 2 ^ 63 then (b : Int) else (b : Int) - 2 ^ 64

/-- `Ord::cmp for OrdF64` (src/ord_float.rs:64-68). -/
def ordF64Cmp (a b : Nat) : Ordering :=
  ordCmp (toSignedBits64 a) (toSignedBits64 b)

/-- Executable check for `List.Pairwise` (the library instance does not reduce
in the kernel). -/
def pairwiseB {T : Type} (p : T → T → Bool) : List T → Bool
  | [] => true
  | x :: xs => xs.all (p x) && pairwiseB p xs

/-- Executable check for `List.Chain'`. -/
def chainB {T : Type} (p : T → T → Bool) : List T → Bool
  | [] => true
  | [_] => true
  | a :: b :: rest => p a b && chainB p (b :: rest)

/-- A concrete `i32` interval set touching neither domain extreme. -/
def exampleI32 : IntervalSet I32 :=
  ⟨[⟨⟨0, by norm_num⟩, ⟨2, by norm_num⟩⟩, ⟨⟨5, by norm_num⟩, ⟨7, by norm_num⟩⟩]⟩


/-! ### Basic facts about `ordCmp` -/

theorem pairwiseB_iff {T : Type} (p : T → T → Bool) :
    ∀ l : List T, pairwiseB p l = true ↔ l.Pairwise (fun a b => p a b = true) := by
  intro l
  induction l with
  | nil => simp [pairwiseB]
  | cons x xs ih =>
    simp [pairwiseB, List.all_eq_true, ih, List.pairwise_cons]

theorem chainB_iff {T : Type} (p : T → T → Bool) :
    ∀ l : List T, chainB p l = true ↔ l.Chain' (fun a b => p a b = true) := by
  intro l
  induction l with
  | nil => simp [chainB]
  | cons a rest ih =>
    cases rest with
    | nil => simp [chainB]
    | cons b rest2 =>
      rw [List.chain'_cons]
      rw [← ih]
      simp [chainB, Bool.and_eq_true]

instance {T : Type} [LinearOrder T] (s : IntervalSet T) : Decidable s.Invariant :=
  decidable_of_iff
    ((pairwiseB (fun a b => decide (a.start < b.start)) s.intervals &&
      chainB (fun a b => decide (a.stop < b.start)) s.intervals &&
      s.intervals.all (fun iv => decide (iv.start < iv.stop))) = true)
    (by
      simp only [Bool.and_eq_true, pairwiseB_iff, chainB_iff, List.all_eq_true,
        decide_eq_true_eq]
      unfold IntervalSet.Invariant
      tauto)



theorem ordCmp_eq_lt {T : Type} [LinearOrder T] {x y : T} :
    ordCmp x y = Ordering.lt ↔ x < y := by
  unfold ordCmp
  split_ifs with h1 h2
  · simp [h1]
  · simpa using asymm h2
  · simpa using h1

theorem ordCmp_eq_eq {T : Type} [LinearOrder T] {x y : T} :
    ordCmp x y = Ordering.eq ↔ x = y := by
  unfold ordCmp
  split_ifs with h1 h2
  · simpa using ne_of_lt h1
  · simpa using (ne_of_lt h2).symm
  · simpa using le_antisymm (not_lt.mp h2) (not_lt.mp h1)

theorem ordCmp_eq_gt {T : Type} [LinearOrder T] {x y : T} :
    ordCmp x y = Ordering.gt ↔ y < x := by
  unfold ordCmp
  split_ifs with h1 h2
  · simpa using asymm h1
  · simpa using h2
  · simpa using h2

/-! ### The binary search returns the partition point on strictly sorted keys -/

theorem bsearchGo_spec {T : Type} [LinearOrder T] (keys : List T) (t : T)
    (hs : keys.Pairwise (· < ·)) :
    ∀ fuel lo hi, hi - lo ≤ fuel → lo ≤ hi → hi ≤ keys.length →
      (∀ i (h : i < keys.length), i < lo → keys[i] < t) →
      (∀ i (h : i < keys.length), hi ≤ i → ¬ keys[i] < t) →
      lo ≤ bsearchGo keys t fuel lo hi ∧ bsearchGo keys t fuel lo hi ≤ hi ∧
        ∀ i (h : i < keys.length), (i < bsearchGo keys t fuel lo hi ↔ keys[i] < t) := by
  have hmono : ∀ i j (hi : i < keys.length) (hj : j < keys.length), i < j →
      keys[i] < keys[j] := fun i j hi hj hij =>
    (List.pairwise_iff_getElem.mp hs) i j hi hj hij
  intro fuel
  induction fuel with
  | zero =>
    intro lo hi hfuel hlohi hhi hlow hhigh
    have hl : hi = lo := by omega
    refine ⟨le_refl _, by simpa [bsearchGo] using hl.ge, ?_⟩
    intro i h
    simp only [bsearchGo]
    constructor
    · exact fun hil => hlow i h hil
    · intro hk
      by_contra hge
      exact hhigh i h (by omega) hk
  | succ fuel ih =>
    intro lo hi hfuel hlohi hhi hlow hhigh
    by_cases hlt : lo < hi
    · have hmidlt : (lo + hi) / 2 < hi := by omega
      have hmidge : lo ≤ (lo + hi) / 2 := by omega
      have hmidlen : (lo + hi) / 2 < keys.length := lt_of_lt_of_le hmidlt hhi
      have hget : keys.getD ((lo + hi) / 2) t = keys[(lo + hi) / 2] :=
        List.getD_eq_getElem keys t hmidlen
      rcases hc : ordCmp (keys.getD ((lo + hi) / 2) t) t with _ | _ | _
      · -- keys[mid] < t : recurse on the right half
        have hstep : bsearchGo keys t (fuel + 1) lo hi =
            bsearchGo keys t fuel ((lo + hi) / 2 + 1) hi := by
          simp only [bsearchGo, if_pos hlt]
          rw [hc]
        have hkm : keys[(lo + hi) / 2] < t := by
          rw [hget] at hc; exact ordCmp_eq_lt.mp hc
        obtain ⟨hr1, hr2, hr3⟩ := ih ((lo + hi) / 2 + 1) hi (by omega) (by omega) hhi
          (by
            intro i h hi2
            rcases Nat.lt_or_ge i ((lo + hi) / 2) with hcase | hcase
            · exact lt_trans (hmono i ((lo + hi) / 2) h hmidlen hcase) hkm
            · have : i = (lo + hi) / 2 := by omega
              subst this; exact hkm)
          hhigh
        rw [hstep]
        exact ⟨by omega, hr2, hr3⟩
      · -- keys[mid] = t : stop at mid
        have hstep : bsearchGo keys t (fuel + 1) lo hi = (lo + hi) / 2 := by
          simp only [bsearchGo, if_pos hlt]
          rw [hc]
        have hkm : keys[(lo + hi) / 2] = t := by
          rw [hget] at hc; exact ordCmp_eq_eq.mp hc
        rw [hstep]
        refine ⟨hmidge, le_of_lt hmidlt, ?_⟩
        intro i h
        constructor
        · intro hil
          exact hkm ▸ hmono i ((lo + hi) / 2) h hmidlen hil
        · intro hk
          by_contra hge
          rcases Nat.lt_or_ge ((lo + hi) / 2) i with hcase | hcase
          · exact absurd (lt_trans (hkm ▸ hmono ((lo + hi) / 2) i hmidlen h hcase) hk)
              (lt_irrefl _)
          · have : i = (lo + hi) / 2 := by omega
            subst this
            exact absurd (hkm ▸ hk) (lt_irrefl _)
      · -- t < keys[mid] : recurse on the left half
        have hstep : bsearchGo keys t (fuel + 1) lo hi =
            bsearchGo keys t fuel lo ((lo + hi) / 2) := by
          simp only [bsearchGo, if_pos hlt]
          rw [hc]
        have hkm : t < keys[(lo + hi) / 2] := by
          rw [hget] at hc; exact ordCmp_eq_gt.mp hc
        obtain ⟨hr1, hr2, hr3⟩ := ih lo ((lo + hi) / 2) (by omega) (by omega)
          (le_of_lt hmidlen) hlow
          (by
            intro i h hi2
            rcases Nat.lt_or_ge ((lo + hi) / 2) i with hcase | hcase
            · exact fun hk =>
                absurd (lt_trans hkm (lt_trans (hmono ((lo + hi) / 2) i hmidlen h hcase) hk))
                  (lt_irrefl _)
            · have : i = (lo + hi) / 2 := by omega
              subst this
              exact fun hk => absurd (lt_trans hkm hk) (lt_irrefl _))
        rw [hstep]
        exact ⟨hr1, by omega, hr3⟩
    · have hl : hi = lo := by omega
      have hstep : bsearchGo keys t (fuel + 1) lo hi = lo := by
        simp only [bsearchGo, if_neg hlt]
      rw [hstep]
      refine ⟨le_refl _, hl.ge, ?_⟩
      intro i h
      constructor
      · exact fun hil => hlow i h hil
      · intro hk
        by_contra hge
        exact hhigh i h (by omega) hk

theorem bsearch_spec {T : Type} [LinearOrder T] (keys : List T) (t : T)
    (hs : keys.Pairwise (· < ·)) :
    bsearch keys t ≤ keys.length ∧
      ∀ i (h : i < keys.length), (i < bsearch keys t ↔ keys[i] < t) := by
  have h := bsearchGo_spec keys t hs keys.length 0 keys.length (by omega) (by omega)
    (le_refl _) (by omega) (by intro i h hge; omega)
  exact ⟨h.2.1, h.2.2⟩

/-! ### Facts about the `IntervalSet` invariant -/

theorem ValidList.sep {T : Type} [LinearOrder T] {l : List (Range T)} (hv : ValidList l) :
    ∀ i j (hi : i < l.length) (hj : j < l.length), i < j → l[i].stop < l[j].start :=
  fun i j hi hj hij => (List.pairwise_iff_getElem.mp hv.2) i j hi hj hij

theorem ValidList.nondegAt {T : Type} [LinearOrder T] {l : List (Range T)} (hv : ValidList l)
    (i : Nat) (hi : i < l.length) : l[i].start < l[i].stop :=
  hv.1 _ (List.getElem_mem hi)

theorem ValidList.starts_lt {T : Type} [LinearOrder T] {l : List (Range T)} (hv : ValidList l)
    {i j : Nat} (hi : i < l.length) (hj : j < l.length) (hij : i < j) :
    l[i].start < l[j].start :=
  lt_trans (hv.nondegAt i hi) (hv.sep i j hi hj hij)

theorem ValidList.stops_lt {T : Type} [LinearOrder T] {l : List (Range T)} (hv : ValidList l)
    {i j : Nat} (hi : i < l.length) (hj : j < l.length) (hij : i < j) :
    l[i].stop < l[j].stop :=
  lt_trans (hv.sep i j hi hj hij) (hv.nondegAt j hj)

theorem ValidList.starts_pairwise {T : Type} [LinearOrder T] {l : List (Range T)}
    (hv : ValidList l) : (l.map Range.start).Pairwise (· < ·) := by
  rw [List.pairwise_iff_getElem]
  intro i j hi hj hij
  simp only [List.getElem_map]
  exact hv.starts_lt (by simpa using hi) (by simpa using hj) hij

theorem ValidList.stops_pairwise {T : Type} [LinearOrder T] {l : List (Range T)}
    (hv : ValidList l) : (l.map Range.stop).Pairwise (· < ·) := by
  rw [List.pairwise_iff_getElem]
  intro i j hi hj hij
  simp only [List.getElem_map]
  exact hv.stops_lt (by simpa using hi) (by simpa using hj) hij

theorem chain'_pairwise_of_nondeg {T : Type} [LinearOrder T] :
    ∀ {l : List (Range T)}, (∀ iv ∈ l, iv.start < iv.stop) →
      l.Chain' (fun a b => a.stop < b.start) → l.Pairwise (fun a b => a.stop < b.start) := by
  intro l
  induction l with
  | nil => intro _ _; exact List.Pairwise.nil
  | cons x xs ih =>
    intro hnd hc
    rw [List.chain'_cons'] at hc
    have hxs := ih (fun iv hiv => hnd iv (List.mem_cons_of_mem x hiv)) hc.2
    rw [List.pairwise_cons]
    refine ⟨?_, hxs⟩
    intro b hb
    cases xs with
    | nil => cases hb
    | cons y ys =>
      have hxy : x.stop < y.start := hc.1 y rfl
      rcases List.mem_cons.mp hb with hbe | hbys
      · exact hbe ▸ hxy
      · have hyb : y.stop < b.start := (List.pairwise_cons.mp hxs).1 b hbys
        have hy : y.start < y.stop := hnd y (by simp)
        exact lt_trans hxy (lt_trans hy hyb)

theorem invariant_iff_validList {T : Type} [LinearOrder T] (s : IntervalSet T) :
    s.Invariant ↔ ValidList s.intervals := by
  constructor
  · rintro ⟨_hsort, hchain, hnd⟩
    exact ⟨hnd, chain'_pairwise_of_nondeg hnd hchain⟩
  · rintro ⟨hnd, hsep⟩
    refine ⟨?_, hsep.chain', hnd⟩
    rw [List.pairwise_iff_getElem]
    intro i j hi hj hij
    exact ValidList.starts_lt ⟨hnd, hsep⟩ hi hj hij

/-! ### Point coverage -/

theorem covL_iff_getElem {T : Type} [LinearOrder T] {l : List (Range T)} {v : T} :
    covL l v ↔ ∃ i, ∃ h : i < l.length, l[i].start ≤ v ∧ v < l[i].stop := by
  unfold covL
  constructor
  · rintro ⟨iv, hmem, hc⟩
    rcases List.mem_iff_getElem.mp hmem with ⟨i, hi, rfl⟩
    exact ⟨i, hi, hc⟩
  · rintro ⟨i, hi, hc⟩
    exact ⟨l[i], List.getElem_mem hi, hc⟩

theorem covL_append {T : Type} [LinearOrder T] {A B : List (Range T)} {v : T} :
    covL (A ++ B) v ↔ covL A v ∨ covL B v := by
  unfold covL
  constructor
  · rintro ⟨iv, hmem, hc⟩
    rcases List.mem_append.mp hmem with h | h
    · exact Or.inl ⟨iv, h, hc⟩
    · exact Or.inr ⟨iv, h, hc⟩
  · rintro (⟨iv, hmem, hc⟩ | ⟨iv, hmem, hc⟩)
    · exact ⟨iv, List.mem_append_left _ hmem, hc⟩
    · exact ⟨iv, List.mem_append_right _ hmem, hc⟩

theorem covL_cons {T : Type} [LinearOrder T] {M : Range T} {B : List (Range T)} {v : T} :
    covL (M :: B) v ↔ (M.start ≤ v ∧ v < M.stop) ∨ covL B v := by
  unfold covL
  constructor
  · rintro ⟨iv, hmem, hc⟩
    rcases List.mem_cons.mp hmem with rfl | h
    · exact Or.inl hc
    · exact Or.inr ⟨iv, h, hc⟩
  · rintro (hc | ⟨iv, hmem, hc⟩)
    · exact ⟨M, List.mem_cons_self _ _, hc⟩
    · exact ⟨iv, List.mem_cons_of_mem _ hmem, hc⟩

/-! ### Characterizations of the pairwise interval primitives -/

theorem interval_union_left {T : Type} [LinearOrder T] (a b : Range T)
    (h : a.start ≤ b.start) :
    interval_union a b =
      if a.stop < b.start then none else some ⟨a.start, max a.stop b.stop⟩ := by
  unfold interval_union
  rw [if_neg (not_lt.mpr h)]

theorem interval_union_swap {T : Type} [LinearOrder T] (a b : Range T)
    (h : b.start < a.start) :
    interval_union a b =
      if b.stop < a.start then none else some ⟨b.start, max b.stop a.stop⟩ := by
  unfold interval_union
  rw [if_pos h]

theorem interval_union_ge {T : Type} [LinearOrder T] (a b : Range T)
    (h : b.start ≤ a.start) (ha : a.start < a.stop) (hb : b.start < b.stop) :
    interval_union a b =
      if b.stop < a.start then none else some ⟨b.start, max b.stop a.stop⟩ := by
  rcases lt_or_eq_of_le h with hlt | heq
  · exact interval_union_swap a b hlt
  · have h1 : ¬ a.stop < b.start := not_lt.mpr (heq.le.trans ha.le)
    have h2 : ¬ b.stop < a.start := not_lt.mpr (heq.ge.trans hb.le)
    rw [interval_union_left a b heq.ge, if_neg h1, if_neg h2, max_comm a.stop b.stop, ← heq]

theorem interval_intersection_left {T : Type} [LinearOrder T] (a b : Range T)
    (h : a.start ≤ b.start) :
    interval_intersection a b =
      if a.stop ≤ b.start then none else some ⟨b.start, min a.stop b.stop⟩ := by
  unfold interval_intersection
  rw [if_neg (not_lt.mpr h)]

theorem interval_intersection_swap {T : Type} [LinearOrder T] (a b : Range T)
    (h : b.start < a.start) :
    interval_intersection a b =
      if b.stop ≤ a.start then none else some ⟨a.start, min b.stop a.stop⟩ := by
  unfold interval_intersection
  rw [if_pos h]

/-- On two non-degenerate ranges, a `Some` intersection is exactly
`[max of the starts, min of the stops)`, and is itself non-degenerate. -/
theorem interval_intersection_some {T : Type} [LinearOrder T] (x f : Range T)
    (hx : x.start < x.stop) (hf : f.start < f.stop) (r : Range T)
    (hr : interval_intersection x f = some r) :
    r = ⟨max x.start f.start, min x.stop f.stop⟩ ∧ r.start < r.stop := by
  rcases le_or_lt x.start f.start with hle | hlt
  · rw [interval_intersection_left x f hle] at hr
    by_cases hc : x.stop ≤ f.start
    · rw [if_pos hc] at hr; cases hr
    · rw [if_neg hc] at hr
      push_neg at hc
      obtain rfl := (Option.some_inj.mp hr).symm
      refine ⟨by rw [max_eq_right hle], ?_⟩
      exact lt_min hc hf
  · rw [interval_intersection_swap x f hlt] at hr
    by_cases hc : f.stop ≤ x.start
    · rw [if_pos hc] at hr; cases hr
    · rw [if_neg hc] at hr
      push_neg at hc
      obtain rfl := (Option.some_inj.mp hr).symm
      refine ⟨by rw [max_eq_left (le_of_lt hlt), min_comm], ?_⟩
      exact lt_min hc hx

/-- A `Some` intersection is contained in the left operand. -/
theorem interval_intersection_subset_left {T : Type} [LinearOrder T] (x f : Range T)
    (r : Range T) (hr : interval_intersection x f = some r) :
    x.start ≤ r.start ∧ r.stop ≤ x.stop := by
  rcases le_or_lt x.start f.start with hle | hlt
  · rw [interval_intersection_left x f hle] at hr
    by_cases hc : x.stop ≤ f.start
    · rw [if_pos hc] at hr; cases hr
    · rw [if_neg hc] at hr
      obtain rfl := (Option.some_inj.mp hr).symm
      exact ⟨hle, min_le_left _ _⟩
  · rw [interval_intersection_swap x f hlt] at hr
    by_cases hc : f.stop ≤ x.start
    · rw [if_pos hc] at hr; cases hr
    · rw [if_neg hc] at hr
      obtain rfl := (Option.some_inj.mp hr).symm
      exact ⟨le_refl _, min_le_right _ _⟩

/-! ### `containing_interval` finds the unique containing interval -/

theorem containing_interval_spec {T : Type} [LinearOrder T] (l : List (Range T))
    (hv : ValidList l) (v : T) :
    ∀ iv, (IntervalSet.containing_interval ⟨l⟩ v = some iv ↔
      (iv ∈ l ∧ iv.start ≤ v ∧ v < iv.stop)) := by
  intro iv
  obtain ⟨hlen, hiff⟩ := bsearch_spec (l.map Range.stop) v hv.stops_pairwise
  rw [List.length_map] at hlen
  have hiff2 : ∀ i (h : i < l.length), (i < bsearch (l.map Range.stop) v ↔ l[i].stop < v) := by
    intro i h
    have := hiff i (by simpa using h)
    simpa using this
  unfold IntervalSet.containing_interval
  rw [show (⟨l⟩ : IntervalSet T).intervals = l from rfl]
  constructor
  · intro hsome
    split at hsome
    case _ a hj =>
      split at hsome
      case isTrue hcont =>
        obtain rfl := Option.some_inj.mp hsome
        have hjlen : bsearch (l.map Range.stop) v < l.length := by
          by_contra hge
          rw [List.get?_eq_getElem?, List.getElem?_eq_none (by omega)] at hj
          cases hj
        rw [List.get?_eq_getElem?, List.getElem?_eq_getElem hjlen] at hj
        obtain rfl := Option.some_inj.mp hj
        exact ⟨List.getElem_mem hjlen, hcont⟩
      case isFalse hcont => cases hsome
    case _ hj => cases hsome
  · rintro ⟨hmem, hcv1, hcv2⟩
    rcases List.mem_iff_getElem.mp hmem with ⟨i, hi, rfl⟩
    have hji : bsearch (l.map Range.stop) v = i := by
      have hnot : ¬ i < bsearch (l.map Range.stop) v := by
        rw [hiff2 i hi]
        exact not_lt.mpr (le_of_lt hcv2)
      have hlow : ∀ k (hk : k < l.length), k < i → l[k].stop < v := by
        intro k hk hki
        exact lt_of_lt_of_le (hv.sep k i hk hi hki) hcv1
      by_contra hne
      have hlt : bsearch (l.map Range.stop) v < i := by omega
      have hx : l[bsearch (l.map Range.stop) v].stop < v :=
        hlow _ (by omega) hlt
      have : bsearch (l.map Range.stop) v < bsearch (l.map Range.stop) v :=
        (hiff2 _ (by omega)).mpr hx
      exact absurd this (lt_irrefl _)
    rw [hji, List.get?_eq_getElem?, List.getElem?_eq_getElem hi]
    exact if_pos ⟨hcv1, hcv2⟩

/-! ### Generic "slice sandwich" lemmas used for every branch of `union` -/

theorem covL_of_subset {T : Type} [LinearOrder T] {A l : List (Range T)} {v : T}
    (hsub : A ⊆ l) (h : covL A v) : covL l v := by
  obtain ⟨iv, hmem, hc⟩ := h
  exact ⟨iv, hsub hmem, hc⟩

/-- Replacing the slice `[u, w)` of a valid list by a single interval `M`
that fits strictly between its neighbours yields a valid list. -/
theorem sandwich_valid {T : Type} [LinearOrder T] (l : List (Range T)) (hv : ValidList l)
    (u w : Nat) (M : Range T) (huw : u ≤ w) (hwn : w ≤ l.length)
    (hgapL : ∀ _h : u - 1 < l.length, 0 < u → l[u - 1].stop < M.start)
    (hM : M.start < M.stop)
    (hgapR : ∀ _h : w < l.length, M.stop < l[w].start) :
    ValidList (l.take u ++ M :: l.drop w) := by
  have hun : u ≤ l.length := le_trans huw hwn
  constructor
  · intro iv hmem
    rcases List.mem_append.mp hmem with hA | hMB
    · exact hv.1 _ ((List.take_sublist u l).subset hA)
    · rcases List.mem_cons.mp hMB with rfl | hB
      · exact hM
      · exact hv.1 _ ((List.drop_sublist w l).subset hB)
  · rw [List.pairwise_append]
    refine ⟨List.Pairwise.sublist (List.take_sublist u l) hv.2, ?_, ?_⟩
    · rw [List.pairwise_cons]
      refine ⟨?_, List.Pairwise.sublist (List.drop_sublist w l) hv.2⟩
      intro b hb
      rcases List.mem_iff_getElem.mp hb with ⟨k, hk, rfl⟩
      have hwlen : w < l.length := by
        rw [List.length_drop] at hk; omega
      have hwk : w + k < l.length := by
        rw [List.length_drop] at hk; omega
      rw [List.getElem_drop]
      rcases Nat.eq_zero_or_pos k with rfl | hkpos
      · simpa using hgapR hwlen
      · exact lt_trans (hgapR hwlen) (hv.starts_lt hwlen hwk (by omega))
    · intro a ha b hb
      rcases List.mem_iff_getElem.mp ha with ⟨i, hi, rfl⟩
      have hiu : i < u := by
        rw [List.length_take] at hi; omega
      have hil : i < l.length := by
        rw [List.length_take] at hi; omega
      rw [List.getElem_take]
      have hu1 : u - 1 < l.length := by omega
      rcases List.mem_cons.mp hb with rfl | hB
      · rcases Nat.lt_or_ge i (u - 1) with hcase | hcase
        · exact lt_trans (hv.sep i (u - 1) hil hu1 hcase)
            (lt_trans (hv.nondegAt (u - 1) hu1) (hgapL hu1 (by omega)))
        · have : i = u - 1 := by omega
          subst this
          exact hgapL hu1 (by omega)
      · rcases List.mem_iff_getElem.mp hB with ⟨k, hk, rfl⟩
        have hwk : w + k < l.length := by
          rw [List.length_drop] at hk; omega
        rw [List.getElem_drop]
        exact hv.sep i (w + k) hil hwk (by omega)

/-- Replacing the slice `[u, w)` by `M` preserves point coverage up to the
inserted range `new`: the removed slice is absorbed by `M`, `new` is inside
`M`, and `M` covers nothing beyond the old coverage plus `new`. -/
theorem sandwich_cov {T : Type} [LinearOrder T] (l : List (Range T)) (new : Range T)
    (u w : Nat) (M : Range T) (_huw : u ≤ w) (hwn : w ≤ l.length)
    (habsorb : ∀ i (_h : i < l.length), u ≤ i → i < w →
      ∀ x, l[i].start ≤ x → x < l[i].stop → M.start ≤ x ∧ x < M.stop)
    (hnew : ∀ x, new.start ≤ x → x < new.stop → M.start ≤ x ∧ x < M.stop)
    (hMcov : ∀ x, M.start ≤ x → x < M.stop → covL l x ∨ (new.start ≤ x ∧ x < new.stop))
    (v : T) :
    covL (l.take u ++ M :: l.drop w) v ↔ (covL l v ∨ (new.start ≤ v ∧ v < new.stop)) := by
  rw [covL_append, covL_cons]
  constructor
  · rintro (hA | hM1 | hB)
    · exact Or.inl (covL_of_subset (List.take_sublist u l).subset hA)
    · exact hMcov v hM1.1 hM1.2
    · exact Or.inl (covL_of_subset (List.drop_sublist w l).subset hB)
  · rintro (hcov | hvnew)
    · rcases covL_iff_getElem.mp hcov with ⟨i, hi, hc1, hc2⟩
      rcases Nat.lt_or_ge i u with hcase | hcase
      · refine Or.inl (covL_iff_getElem.mpr ⟨i, ?_, ?_⟩)
        · rw [List.length_take]; omega
        · rw [List.getElem_take]; exact ⟨hc1, hc2⟩
      · rcases Nat.lt_or_ge i w with hcase2 | hcase2
        · exact Or.inr (Or.inl (habsorb i hi hcase hcase2 v hc1 hc2))
        · refine Or.inr (Or.inr (covL_iff_getElem.mpr ⟨i - w, ?_, ?_⟩))
          · rw [List.length_drop]; omega
          · have : w + (i - w) = i := by omega
            rw [List.getElem_drop]
            simp only [this]
            exact ⟨hc1, hc2⟩
    · exact Or.inr (Or.inl (hnew v hvnew.1 hvnew.2))

/-- Both sandwich conclusions at once. -/
theorem sandwich_main {T : Type} [LinearOrder T] (l : List (Range T)) (hv : ValidList l)
    (new : Range T) (u w : Nat) (M : Range T) (huw : u ≤ w) (hwn : w ≤ l.length)
    (hgapL : ∀ _h : u - 1 < l.length, 0 < u → l[u - 1].stop < M.start)
    (hM : M.start < M.stop)
    (hgapR : ∀ _h : w < l.length, M.stop < l[w].start)
    (habsorb : ∀ i (_h : i < l.length), u ≤ i → i < w →
      ∀ x, l[i].start ≤ x → x < l[i].stop → M.start ≤ x ∧ x < M.stop)
    (hnew : ∀ x, new.start ≤ x → x < new.stop → M.start ≤ x ∧ x < M.stop)
    (hMcov : ∀ x, M.start ≤ x → x < M.stop → covL l x ∨ (new.start ≤ x ∧ x < new.stop)) :
    ValidList (l.take u ++ M :: l.drop w) ∧
      ∀ v, covL (l.take u ++ M :: l.drop w) v ↔
        (covL l v ∨ (new.start ≤ v ∧ v < new.stop)) :=
  ⟨sandwich_valid l hv u w M huw hwn hgapL hM hgapR,
   fun v => sandwich_cov l new u w M huw hwn habsorb hnew hMcov v⟩

/-! ### Positional list computations for the `union` merge phase -/

theorem insertIdx_at {α : Type} (A : List α) (M : α) (B : List α) :
    (A ++ B).insertIdx A.length M = A ++ M :: B := by
  induction A with
  | nil => simp
  | cons a A ih => simpa [List.insertIdx_succ_cons] using ih

theorem set_at_last_of_take {T : Type} (l : List T) (u : Nat) (hu : 0 < u)
    (hul : u ≤ l.length) (M : T) :
    ∀ B, (l.take u ++ B).set (u - 1) M = l.take (u - 1) ++ M :: B := by
  intro B
  have hu1 : u - 1 < l.length := by omega
  have htk : l.take u = l.take (u - 1) ++ [l[u - 1]] := by
    have hsplit : u = (u - 1) + 1 := by omega
    conv_lhs => rw [hsplit]
    rw [List.take_succ, List.getElem?_eq_getElem hu1]
    rfl
  rw [htk, List.append_assoc, List.singleton_append, List.set_append]
  have hlen : (l.take (u - 1)).length = u - 1 := by
    rw [List.length_take]; omega
  rw [if_neg (by omega), hlen, Nat.sub_self, List.set_cons_zero]

theorem contains_iff_covL {T : Type} [LinearOrder T] (l : List (Range T))
    (hv : ValidList l) (v : T) :
    (IntervalSet.contains ⟨l⟩ v = true) ↔ covL l v := by
  unfold IntervalSet.contains
  rw [Option.isSome_iff_exists]
  unfold covL
  constructor
  · rintro ⟨a, ha⟩
    have := (containing_interval_spec l hv v a).mp ha
    exact ⟨a, this.1, this.2⟩
  · rintro ⟨iv, hmem, hc⟩
    exact ⟨iv, (containing_interval_spec l hv v iv).mpr ⟨hmem, hc⟩⟩

/-! ### `IntervalSet.union` preserves the invariant and adds exactly `new` -/

set_option maxHeartbeats 1600000 in
theorem unionMerge_main {T : Type} [LinearOrder T] (l : List (Range T)) (hv : ValidList l)
    (new : Range T) (hdeg : new.start < new.stop) (i0 i1 : Nat)
    (hord : i0 ≤ i1) (hlen1 : i1 ≤ l.length)
    (h0lt : ∀ i (h : i < l.length), i < i0 → l[i].start < new.start)
    (h0ge : ∀ i (h : i < l.length), i0 ≤ i → new.start ≤ l[i].start)
    (h1lt : ∀ i (h : i < l.length), i < i1 → l[i].stop < new.stop)
    (h1ge : ∀ i (h : i < l.length), i1 ≤ i → new.stop ≤ l[i].stop) :
    ValidList (unionMerge (l.take i0 ++ l.drop i1) i0 new) ∧
      ∀ v, covL (unionMerge (l.take i0 ++ l.drop i1) i0 new) v ↔
        (covL l v ∨ (new.start ≤ v ∧ v < new.stop)) := by
  have hlen0 : i0 ≤ l.length := le_trans hord hlen1
  have hA_len : (l.take i0).length = i0 := by
    rw [List.length_take]; omega
  -- the continuation once no left merge happens, parameterized by the strict
  -- left gap fact and the reduced first scrutinee
  have hnoleft :
      (∀ _h : i0 - 1 < l.length, 0 < i0 → l[i0 - 1].stop < new.start) →
      ((if 0 < i0 then ((l.take i0 ++ l.drop i1).get? (i0 - 1)).bind
          (fun pre => interval_union pre new) else none) = none) →
      (ValidList (unionMerge (l.take i0 ++ l.drop i1) i0 new) ∧
        ∀ v, covL (unionMerge (l.take i0 ++ l.drop i1) i0 new) v ↔
          (covL l v ∨ (new.start ≤ v ∧ v < new.stop))) := by
    intro hgapLeft hsc1
    have hleaf3 : (∀ _h : i1 < l.length, new.stop < l[i1].start) →
        ValidList (l.take i0 ++ new :: l.drop i1) ∧
          ∀ v, covL (l.take i0 ++ new :: l.drop i1) v ↔
            (covL l v ∨ (new.start ≤ v ∧ v < new.stop)) := by
      intro hgapR
      exact sandwich_main l hv new i0 i1 new hord hlen1 hgapLeft hdeg hgapR
        (fun i h hi0 hi1 x hx1 hx2 =>
          ⟨le_trans (h0ge i h hi0) hx1, lt_trans hx2 (h1lt i h hi1)⟩)
        (fun x h1 h2 => ⟨h1, h2⟩)
        (fun x h1 h2 => Or.inr ⟨h1, h2⟩)
    have hins := insertIdx_at (l.take i0) new (l.drop i1)
    rw [hA_len] at hins
    by_cases hRex : i1 < l.length
    · have hget2 : (l.take i0 ++ l.drop i1).get? i0 = some l[i1] := by
        rw [List.get?_eq_getElem?, List.getElem?_append, if_neg (by rw [hA_len]; omega),
          hA_len, Nat.sub_self, List.getElem?_drop, Nat.add_zero,
          List.getElem?_eq_getElem hRex]
      have hu3base : interval_union l[i1] new =
          if new.stop < l[i1].start then none
          else some ⟨new.start, max new.stop l[i1].stop⟩ :=
        interval_union_ge _ _ (h0ge i1 hRex hord) (hv.nondegAt i1 hRex) hdeg
      by_cases hRm : new.stop < l[i1].start
      · have hu3 : interval_union l[i1] new = none := by
          rw [hu3base, if_pos hRm]
        have hred : unionMerge (l.take i0 ++ l.drop i1) i0 new =
            l.take i0 ++ new :: l.drop i1 := by
          simp only [unionMerge, hsc1, hget2, Option.some_bind, hu3, hins]
        rw [hred]
        exact hleaf3 (fun _ => hRm)
      · push_neg at hRm
        have hu3 : interval_union l[i1] new =
            some ⟨new.start, max new.stop l[i1].stop⟩ := by
          rw [hu3base, if_neg (not_lt.mpr hRm)]
        have hset : (l.take i0 ++ l.drop i1).set i0 ⟨new.start, max new.stop l[i1].stop⟩ =
            l.take i0 ++ (⟨new.start, max new.stop l[i1].stop⟩ : Range T) :: l.drop (i1 + 1) := by
          rw [List.set_append, if_neg (by rw [hA_len]; omega), hA_len, Nat.sub_self,
            List.drop_eq_getElem_cons hRex, List.set_cons_zero]
        have hred : unionMerge (l.take i0 ++ l.drop i1) i0 new =
            l.take i0 ++ (⟨new.start, max new.stop l[i1].stop⟩ : Range T) :: l.drop (i1 + 1) := by
          simp only [unionMerge, hsc1, hget2, Option.some_bind, hu3, hset]
        rw [hred]
        refine sandwich_main l hv new i0 (i1 + 1)
          ⟨new.start, max new.stop l[i1].stop⟩ (by omega) (by omega) hgapLeft
          (lt_of_lt_of_le hdeg (le_max_left _ _)) ?_ ?_ ?_ ?_
        · intro h
          exact lt_of_le_of_lt
            (max_le (h1ge i1 hRex (le_refl i1)) (le_refl _))
            (hv.sep i1 (i1 + 1) hRex h (by omega))
        · intro i h hi0 hi1 x hx1 hx2
          refine ⟨le_trans (h0ge i h hi0) hx1, ?_⟩
          have hstop : l[i].stop ≤ l[i1].stop := by
            rcases Nat.lt_or_ge i i1 with hc | hc
            · exact (hv.stops_lt h hRex hc).le
            · have : i = i1 := by omega
              subst this; exact le_refl _
          exact lt_of_lt_of_le hx2 (le_trans hstop (le_max_right _ _))
        · exact fun x h1 h2 => ⟨h1, lt_of_lt_of_le h2 (le_max_left _ _)⟩
        · intro x h1 h2
          rcases lt_or_ge x new.stop with hc | hc
          · exact Or.inr ⟨h1, hc⟩
          · refine Or.inl (covL_iff_getElem.mpr ⟨i1, hRex, le_trans hRm hc, ?_⟩)
            rcases lt_max_iff.mp h2 with hx | hx
            · exact absurd hx (not_lt.mpr hc)
            · exact hx
    · have hget2 : (l.take i0 ++ l.drop i1).get? i0 = none := by
        rw [List.get?_eq_getElem?, List.getElem?_eq_none]
        rw [List.length_append, hA_len, List.length_drop]
        omega
      have hred : unionMerge (l.take i0 ++ l.drop i1) i0 new =
          l.take i0 ++ new :: l.drop i1 := by
        simp only [unionMerge, hsc1, hget2, Option.none_bind, hins]
      rw [hred]
      exact hleaf3 (fun h => absurd h (by omega))
  by_cases hLpos : 0 < i0
  · have hi01 : i0 - 1 < l.length := by omega
    have hget1 : (l.take i0 ++ l.drop i1).get? (i0 - 1) = some l[i0 - 1] := by
      rw [List.get?_eq_getElem?, List.getElem?_append, if_pos (by rw [hA_len]; omega),
        List.getElem?_eq_getElem (by rw [hA_len]; omega), List.getElem_take]
    have hLstart : l[i0 - 1].start < new.start := h0lt (i0 - 1) hi01 (by omega)
    by_cases hLm : l[i0 - 1].stop < new.start
    · exact hnoleft (fun _ _ => hLm)
        (by rw [if_pos hLpos, hget1, Option.some_bind,
          interval_union_left _ _ hLstart.le, if_pos hLm])
    · push_neg at hLm
      have hu1 : interval_union l[i0 - 1] new =
          some ⟨l[i0 - 1].start, max l[i0 - 1].stop new.stop⟩ := by
        rw [interval_union_left _ _ hLstart.le, if_neg (not_lt.mpr hLm)]
      -- the M produced by a successful left merge
      have hleaf1 : (∀ _h : i1 < l.length, max l[i0 - 1].stop new.stop < l[i1].start) →
          ValidList (l.take (i0 - 1) ++
              (⟨l[i0 - 1].start, max l[i0 - 1].stop new.stop⟩ : Range T) :: l.drop i1) ∧
            ∀ v, covL (l.take (i0 - 1) ++
              (⟨l[i0 - 1].start, max l[i0 - 1].stop new.stop⟩ : Range T) :: l.drop i1) v ↔
                (covL l v ∨ (new.start ≤ v ∧ v < new.stop)) := by
        intro hgapR
        refine sandwich_main l hv new (i0 - 1) i1
          ⟨l[i0 - 1].start, max l[i0 - 1].stop new.stop⟩ (by omega) hlen1 ?_
          (lt_of_lt_of_le (hv.nondegAt (i0 - 1) hi01) (le_max_left _ _)) hgapR ?_ ?_ ?_
        · intro h h0
          exact hv.sep (i0 - 1 - 1) (i0 - 1) h hi01 (by omega)
        · intro i h hi0 hi1 x hx1 hx2
          constructor
          · refine le_trans ?_ hx1
            rcases Nat.lt_or_ge (i0 - 1) i with hc | hc
            · exact (hv.starts_lt hi01 h hc).le
            · have : i = i0 - 1 := by omega
              subst this; exact le_refl _
          · rcases Nat.lt_or_ge i (i0 - 1) with hc | hc
            · omega
            · rcases Nat.eq_or_lt_of_le hc with hc2 | hc2
              · have : i = i0 - 1 := hc2.symm
                subst this
                exact lt_of_lt_of_le hx2 (le_max_left _ _)
              · have hi0i : i0 ≤ i := by omega
                exact lt_of_lt_of_le (lt_trans hx2 (h1lt i h hi1)) (le_max_right _ _)
        · exact fun x h1 h2 => ⟨le_trans hLstart.le h1, lt_of_lt_of_le h2 (le_max_right _ _)⟩
        · intro x h1 h2
          rcases lt_or_ge x l[i0 - 1].stop with hc | hc
          · exact Or.inl (covL_iff_getElem.mpr ⟨i0 - 1, hi01, h1, hc⟩)
          · refine Or.inr ⟨le_trans hLm hc, ?_⟩
            rcases lt_max_iff.mp h2 with hx | hx
            · exact absurd hx (not_lt.mpr hc)
            · exact hx
      by_cases hRex : i1 < l.length
      · have hget2 : (l.take i0 ++ l.drop i1).get? i0 = some l[i1] := by
          rw [List.get?_eq_getElem?, List.getElem?_append, if_neg (by rw [hA_len]; omega),
            hA_len, Nat.sub_self, List.getElem?_drop, Nat.add_zero,
            List.getElem?_eq_getElem hRex]
        have hms : l[i0 - 1].start < l[i1].start :=
          lt_of_lt_of_le hLstart (h0ge i1 hRex hord)
        have hu2base : interval_union l[i1]
            (⟨l[i0 - 1].start, max l[i0 - 1].stop new.stop⟩ : Range T) =
            if (max l[i0 - 1].stop new.stop) < l[i1].start then none
            else some ⟨l[i0 - 1].start, max (max l[i0 - 1].stop new.stop) l[i1].stop⟩ :=
          interval_union_swap _ _ hms
        by_cases hRm : max l[i0 - 1].stop new.stop < l[i1].start
        · have hu2 : interval_union l[i1]
              (⟨l[i0 - 1].start, max l[i0 - 1].stop new.stop⟩ : Range T) = none := by
            rw [hu2base, if_pos hRm]
          have hred : unionMerge (l.take i0 ++ l.drop i1) i0 new =
              l.take (i0 - 1) ++
                (⟨l[i0 - 1].start, max l[i0 - 1].stop new.stop⟩ : Range T) :: l.drop i1 := by
            simp only [unionMerge, if_pos hLpos, hget1, Option.some_bind, hu1, hget2, hu2]
            exact set_at_last_of_take l i0 hLpos hlen0 _ _
          rw [hred]
          exact hleaf1 (fun _ => hRm)
        · push_neg at hRm
          have hu2 : interval_union l[i1]
              (⟨l[i0 - 1].start, max l[i0 - 1].stop new.stop⟩ : Range T) =
              some ⟨l[i0 - 1].start, max (max l[i0 - 1].stop new.stop) l[i1].stop⟩ := by
            rw [hu2base, if_neg (not_lt.mpr hRm)]
          have herase : (l.take i0 ++ l.drop i1).eraseIdx i0 =
              l.take i0 ++ l.drop (i1 + 1) := by
            rw [List.drop_eq_getElem_cons hRex,
              List.eraseIdx_append_of_length_le (by rw [hA_len]), hA_len, Nat.sub_self,
              List.eraseIdx_cons_zero]
          have hred : unionMerge (l.take i0 ++ l.drop i1) i0 new =
              l.take (i0 - 1) ++
                (⟨l[i0 - 1].start, max (max l[i0 - 1].stop new.stop) l[i1].stop⟩ : Range T) ::
                  l.drop (i1 + 1) := by
            simp only [unionMerge, if_pos hLpos, hget1, Option.some_bind, hu1, hget2, hu2,
              herase]
            exact set_at_last_of_take l i0 hLpos hlen0 _ _
          rw [hred]
          have hstopsle : max (max l[i0 - 1].stop new.stop) l[i1].stop = l[i1].stop := by
            have h1 : l[i0 - 1].stop ≤ l[i1].stop := (hv.stops_lt hi01 hRex (by omega)).le
            have h2 : new.stop ≤ l[i1].stop := h1ge i1 hRex (le_refl i1)
            rw [max_eq_right (max_le h1 h2)]
          refine sandwich_main l hv new (i0 - 1) (i1 + 1)
            ⟨l[i0 - 1].start, max (max l[i0 - 1].stop new.stop) l[i1].stop⟩
            (by omega) (by omega) ?_
            (lt_of_lt_of_le (hv.nondegAt (i0 - 1) hi01)
              (le_trans (le_max_left _ _) (le_max_left _ _))) ?_ ?_ ?_ ?_
          · intro h h0
            exact hv.sep (i0 - 1 - 1) (i0 - 1) h hi01 (by omega)
          · intro h
            rw [hstopsle]
            exact hv.sep i1 (i1 + 1) hRex h (by omega)
          · intro i h hi0 hi1 x hx1 hx2
            constructor
            · refine le_trans ?_ hx1
              rcases Nat.lt_or_ge (i0 - 1) i with hc | hc
              · exact (hv.starts_lt hi01 h hc).le
              · have : i = i0 - 1 := by omega
                subst this; exact le_refl _
            · rw [hstopsle]
              have hstop : l[i].stop ≤ l[i1].stop := by
                rcases Nat.lt_or_ge i i1 with hc | hc
                · exact (hv.stops_lt h hRex hc).le
                · have : i = i1 := by omega
                  subst this; exact le_refl _
              exact lt_of_lt_of_le hx2 hstop
          · exact fun x h1 h2 => ⟨le_trans hLstart.le h1,
              lt_of_lt_of_le h2 (le_trans (le_max_right _ _) (le_max_left _ _))⟩
          · intro x h1 h2
            rcases lt_or_ge x l[i0 - 1].stop with hc | hc
            · exact Or.inl (covL_iff_getElem.mpr ⟨i0 - 1, hi01, h1, hc⟩)
            · rcases lt_or_ge x new.stop with hc2 | hc2
              · exact Or.inr ⟨le_trans hLm hc, hc2⟩
              · refine Or.inl (covL_iff_getElem.mpr ⟨i1, hRex, ?_, ?_⟩)
                · exact le_trans hRm (max_le hc hc2)
                · rw [hstopsle] at h2
                  exact h2
      · have hget2 : (l.take i0 ++ l.drop i1).get? i0 = none := by
          rw [List.get?_eq_getElem?, List.getElem?_eq_none]
          rw [List.length_append, hA_len, List.length_drop]
          omega
        have hred : unionMerge (l.take i0 ++ l.drop i1) i0 new =
            l.take (i0 - 1) ++
              (⟨l[i0 - 1].start, max l[i0 - 1].stop new.stop⟩ : Range T) :: l.drop i1 := by
          simp only [unionMerge, if_pos hLpos, hget1, Option.some_bind, hu1, hget2,
            Option.none_bind]
          exact set_at_last_of_take l i0 hLpos hlen0 _ _
        rw [hred]
        exact hleaf1 (fun h => absurd h (by omega))
  · exact hnoleft (fun _ h0 => absurd h0 hLpos) (by rw [if_neg hLpos])

set_option maxHeartbeats 1000000 in
theorem union_valid_cov {T : Type} [LinearOrder T] (l : List (Range T)) (hv : ValidList l)
    (new : Range T) :
    ValidList ((IntervalSet.union ⟨l⟩ new).intervals) ∧
      (new.start < new.stop →
        ∀ v, covL ((IntervalSet.union ⟨l⟩ new).intervals) v ↔
          (covL l v ∨ (new.start ≤ v ∧ v < new.stop))) := by
  by_cases hdeg : new.stop ≤ new.start
  · have hres : (IntervalSet.union ⟨l⟩ new).intervals = l := by
      simp only [IntervalSet.union, if_pos hdeg]
    rw [hres]
    exact ⟨hv, fun hnd => absurd hnd (not_lt.mpr hdeg)⟩
  · push_neg at hdeg
    by_cases hemp : l.isEmpty
    · have hnil : l = [] := List.isEmpty_iff.mp hemp
      subst hnil
      have hres : (IntervalSet.union (⟨[]⟩ : IntervalSet T) new).intervals = [new] := by
        simp [IntervalSet.union, not_le.mpr hdeg]
      rw [hres]
      refine ⟨⟨?_, ?_⟩, ?_⟩
      · intro iv hmem
        rcases List.mem_cons.mp hmem with rfl | h
        · exact hdeg
        · cases h
      · exact List.pairwise_singleton _ _
      · intro _ v
        rw [covL_cons]
        unfold covL
        simp
    · have hstep : (IntervalSet.union ⟨l⟩ new).intervals =
          (if bsearch (l.map Range.stop) new.stop < bsearch (l.map Range.start) new.start
           then l
           else unionMerge
             (if bsearch (l.map Range.start) new.start < bsearch (l.map Range.stop) new.stop
              then l.take (bsearch (l.map Range.start) new.start) ++
                l.drop (bsearch (l.map Range.stop) new.stop)
              else l)
             (bsearch (l.map Range.start) new.start) new) := by
        simp only [IntervalSet.union]
        rw [if_neg (not_le.mpr hdeg), if_neg hemp, apply_ite IntervalSet.intervals]
      rw [hstep]
      obtain ⟨hlen0, hiffS⟩ := bsearch_spec (l.map Range.start) new.start hv.starts_pairwise
      obtain ⟨hlen1, hiffE⟩ := bsearch_spec (l.map Range.stop) new.stop hv.stops_pairwise
      rw [List.length_map] at hlen0 hlen1
      set i0 := bsearch (l.map Range.start) new.start with hi0def
      set i1 := bsearch (l.map Range.stop) new.stop with hi1def
      have h0lt : ∀ i (h : i < l.length), i < i0 → l[i].start < new.start := by
        intro i h hi
        have := (hiffS i (by simpa using h)).mp hi
        simpa using this
      have h0ge : ∀ i (h : i < l.length), i0 ≤ i → new.start ≤ l[i].start := by
        intro i h hi
        by_contra hc
        push_neg at hc
        have := (hiffS i (by simpa using h)).mpr (by simpa using hc)
        omega
      have h1lt : ∀ i (h : i < l.length), i < i1 → l[i].stop < new.stop := by
        intro i h hi
        have := (hiffE i (by simpa using h)).mp hi
        simpa using this
      have h1ge : ∀ i (h : i < l.length), i1 ≤ i → new.stop ≤ l[i].stop := by
        intro i h hi
        by_contra hc
        push_neg at hc
        have := (hiffE i (by simpa using h)).mpr (by simpa using hc)
        omega
      by_cases hord : i1 < i0
      · rw [if_pos hord]
        refine ⟨hv, fun _ v => ?_⟩
        constructor
        · exact Or.inl
        · rintro (hcov | hvnew)
          · exact hcov
          · have hi1l : i1 < l.length := by omega
            refine covL_iff_getElem.mpr ⟨i1, hi1l, ?_, ?_⟩
            · exact le_trans (le_of_lt (h0lt i1 hi1l hord)) hvnew.1
            · exact lt_of_lt_of_le hvnew.2 (h1ge i1 hi1l (le_refl i1))
      · rw [if_neg hord]
        push_neg at hord
        have hpr : (if i0 < i1 then l.take i0 ++ l.drop i1 else l) =
            l.take i0 ++ l.drop i1 := by
          rcases lt_or_eq_of_le hord with hlt | heq
          · rw [if_pos hlt]
          · rw [if_neg (heq ▸ lt_irrefl i0), ← heq, List.take_append_drop]
        rw [hpr]
        obtain ⟨hval, hcov⟩ := unionMerge_main l hv new hdeg i0 i1 hord hlen1
          h0lt h0ge h1lt h1ge
        exact ⟨hval, fun _ => hcov⟩


/-! ### Negation is an involution -/


/-! ### Negation is an involution -/

theorem negList_cons {T : Type} [DecidableEq T] [UniversalInterval T]
    (x : Range T) (xs : List (Range T)) :
    negList (x :: xs) =
      (if x.start = UniversalInterval.INFINUM then []
       else [⟨UniversalInterval.INFINUM, x.start⟩])
        ++ gapsList (x :: xs)
        ++ (if ((x :: xs).getLast (List.cons_ne_nil x xs)).stop = UniversalInterval.SUPREMUM
            then []
            else [⟨((x :: xs).getLast (List.cons_ne_nil x xs)).stop,
                   UniversalInterval.SUPREMUM⟩]) := rfl

theorem gaps_cons_cons {T : Type} (a b : Range T) (rest : List (Range T)) :
    gapsList (a :: b :: rest) = ⟨a.stop, b.start⟩ :: gapsList (b :: rest) := rfl

theorem gaps_single {T : Type} (a : Range T) : gapsList [a] = [] := rfl

/-- Taking the gaps of a "bracketed" list reconstructs the original list:
this is the combinatorial heart of the double-negation computation. -/
theorem gaps_bracket {T : Type} (w : T) :
    ∀ (xs : List (Range T)) (x : Range T) (u : T),
      gapsList (⟨u, x.start⟩ :: (gapsList (x :: xs) ++
        [⟨((x :: xs).getLast (List.cons_ne_nil x xs)).stop, w⟩])) = x :: xs := by
  intro xs
  induction xs with
  | nil => intro x u; rfl
  | cons y ys ih =>
    intro x u
    have hlast : ((x :: y :: ys).getLast (List.cons_ne_nil x (y :: ys))) =
        ((y :: ys).getLast (List.cons_ne_nil y ys)) := List.getLast_cons _
    rw [hlast, gaps_cons_cons]
    show x :: gapsList (⟨x.stop, y.start⟩ :: (gapsList (y :: ys) ++
        [⟨((y :: ys).getLast (List.cons_ne_nil y ys)).stop, w⟩])) = x :: y :: ys
    rw [ih y x.stop]

/-- Splitting the gap list at the last element. -/
theorem gaps_concat {T : Type} (z : Range T) :
    ∀ (mid : List (Range T)) (x : Range T),
      gapsList (x :: (mid ++ [z])) = gapsList (x :: mid) ++
        [⟨((x :: mid).getLast (List.cons_ne_nil x mid)).stop, z.start⟩] := by
  intro mid
  induction mid with
  | nil => intro x; rfl
  | cons m ms ih =>
    intro x
    have hlast : ((x :: m :: ms).getLast (List.cons_ne_nil x (m :: ms))) =
        ((m :: ms).getLast (List.cons_ne_nil m ms)) := List.getLast_cons _
    rw [hlast]
    show ⟨x.stop, m.start⟩ :: gapsList (m :: (ms ++ [z])) =
      gapsList (x :: m :: ms) ++
        [⟨((m :: ms).getLast (List.cons_ne_nil m ms)).stop, z.start⟩]
    rw [ih m]
    rfl

end LkMath

namespace LkMath

theorem getLast_eq_of_concat {α : Type} (l mid : List α) (z : α)
    (h : l = mid ++ [z]) (hne : l ≠ []) : l.getLast hne = z := by
  subst h
  exact List.getLast_concat _

theorem negList_involution {T : Type} [LinearOrder T] [UniversalInterval T]
    (l : List (Range T)) (hnd : ∀ iv ∈ l, iv.start < iv.stop) :
    negList (negList l) = l := by
  cases l with
  | nil =>
    show negList [(⟨UniversalInterval.INFINUM, UniversalInterval.SUPREMUM⟩ : Range T)] = []
    rw [negList_cons]
    rw [if_pos (show (⟨UniversalInterval.INFINUM, UniversalInterval.SUPREMUM⟩ :
      Range T).start = UniversalInterval.INFINUM from rfl)]
    rw [if_pos (show (([(⟨UniversalInterval.INFINUM, UniversalInterval.SUPREMUM⟩ :
      Range T)].getLast (List.cons_ne_nil _ _)).stop = UniversalInterval.SUPREMUM) from rfl)]
    rfl
  | cons x xs =>
    have hx : x.start < x.stop := hnd x (by simp)
    cases xs with
    | nil =>
      rw [negList_cons]
      by_cases h1 : x.start = UniversalInterval.INFINUM
      · by_cases h2 : x.stop = UniversalInterval.SUPREMUM
        · rw [if_pos h1,
            if_pos (show (([x].getLast (List.cons_ne_nil x [])).stop =
              UniversalInterval.SUPREMUM) from h2)]
          show [(⟨UniversalInterval.INFINUM, UniversalInterval.SUPREMUM⟩ : Range T)] = [x]
          rw [← h1, ← h2]
        · rw [if_pos h1,
            if_neg (show ¬ (([x].getLast (List.cons_ne_nil x [])).stop =
              UniversalInterval.SUPREMUM) from h2)]
          show negList [(⟨x.stop, UniversalInterval.SUPREMUM⟩ : Range T)] = [x]
          rw [negList_cons]
          rw [if_neg (show ¬ ((⟨x.stop, UniversalInterval.SUPREMUM⟩ : Range T).start =
            UniversalInterval.INFINUM) from ne_of_gt (h1 ▸ hx))]
          rw [if_pos (show (([(⟨x.stop, UniversalInterval.SUPREMUM⟩ : Range T)].getLast
            (List.cons_ne_nil _ _)).stop = UniversalInterval.SUPREMUM) from rfl)]
          show [(⟨UniversalInterval.INFINUM, x.stop⟩ : Range T)] = [x]
          rw [← h1]
      · by_cases h2 : x.stop = UniversalInterval.SUPREMUM
        · rw [if_neg h1,
            if_pos (show (([x].getLast (List.cons_ne_nil x [])).stop =
              UniversalInterval.SUPREMUM) from h2)]
          show negList [(⟨UniversalInterval.INFINUM, x.start⟩ : Range T)] = [x]
          rw [negList_cons]
          rw [if_pos (show ((⟨UniversalInterval.INFINUM, x.start⟩ : Range T).start =
            UniversalInterval.INFINUM) from rfl)]
          rw [if_neg (show ¬ (([(⟨UniversalInterval.INFINUM, x.start⟩ : Range T)].getLast
            (List.cons_ne_nil _ _)).stop = UniversalInterval.SUPREMUM) from
            ne_of_lt (h2 ▸ hx))]
          show [(⟨x.start, UniversalInterval.SUPREMUM⟩ : Range T)] = [x]
          rw [← h2]
        · rw [if_neg h1,
            if_neg (show ¬ (([x].getLast (List.cons_ne_nil x [])).stop =
              UniversalInterval.SUPREMUM) from h2)]
          show negList [(⟨UniversalInterval.INFINUM, x.start⟩ : Range T),
            ⟨x.stop, UniversalInterval.SUPREMUM⟩] = [x]
          rw [negList_cons]
          rw [if_pos (show ((⟨UniversalInterval.INFINUM, x.start⟩ : Range T).start =
            UniversalInterval.INFINUM) from rfl)]
          rw [if_pos (show (([(⟨UniversalInterval.INFINUM, x.start⟩ : Range T),
            ⟨x.stop, UniversalInterval.SUPREMUM⟩].getLast (List.cons_ne_nil _ _)).stop =
            UniversalInterval.SUPREMUM) from rfl)]
          show [(⟨x.start, x.stop⟩ : Range T)] = [x]
          rfl
    | cons y ys =>
      rw [negList_cons]
      have hgl2 : ((x :: y :: ys).getLast (List.cons_ne_nil x (y :: ys))) =
          ((y :: ys).getLast (List.cons_ne_nil y ys)) := List.getLast_cons _
      by_cases h1 : x.start = UniversalInterval.INFINUM
      · by_cases h2 : ((x :: y :: ys).getLast (List.cons_ne_nil x (y :: ys))).stop =
            UniversalInterval.SUPREMUM
        · -- both extremes touched; split the tail at its last element
          rcases List.eq_nil_or_concat (y :: ys) with heq | ⟨mid, z, heq⟩
          · cases heq
          · rw [List.concat_eq_append] at heq
            have hglz : ((x :: y :: ys).getLast (List.cons_ne_nil x (y :: ys))) = z := by
              rw [hgl2]
              exact getLast_eq_of_concat _ mid z heq _
            have h2' : z.stop = UniversalInterval.SUPREMUM := by rw [hglz] at h2; exact h2
            have hz : z.start < z.stop := hnd z (by simp [heq])
            rw [if_pos h1, if_pos h2, heq, List.append_nil]
            cases mid with
            | nil =>
              show negList [(⟨x.stop, z.start⟩ : Range T)] = x :: ([] ++ [z])
              rw [negList_cons]
              rw [if_neg (show ¬ ((⟨x.stop, z.start⟩ : Range T).start =
                UniversalInterval.INFINUM) from ne_of_gt (h1 ▸ hx))]
              rw [if_neg (show ¬ (([(⟨x.stop, z.start⟩ : Range T)].getLast
                (List.cons_ne_nil _ _)).stop = UniversalInterval.SUPREMUM) from
                ne_of_lt (h2' ▸ hz))]
              show [(⟨UniversalInterval.INFINUM, x.stop⟩ : Range T),
                ⟨z.start, UniversalInterval.SUPREMUM⟩] = x :: ([] ++ [z])
              rw [← h1, ← h2']
              rfl
            | cons m ms =>
              have hshape : gapsList (x :: ((m :: ms) ++ [z])) =
                  ⟨x.stop, m.start⟩ :: (gapsList (m :: ms) ++
                    [⟨((m :: ms).getLast (List.cons_ne_nil m ms)).stop, z.start⟩]) := by
                rw [gaps_concat]
                rw [show ((x :: m :: ms).getLast (List.cons_ne_nil x (m :: ms))) =
                  ((m :: ms).getLast (List.cons_ne_nil m ms)) from List.getLast_cons _]
                rfl
              rw [hshape]
              show negList (⟨x.stop, m.start⟩ :: (gapsList (m :: ms) ++
                [⟨((m :: ms).getLast (List.cons_ne_nil m ms)).stop, z.start⟩])) =
                x :: ((m :: ms) ++ [z])
              rw [negList_cons]
              rw [if_neg (show ¬ ((⟨x.stop, m.start⟩ : Range T).start =
                UniversalInterval.INFINUM) from ne_of_gt (h1 ▸ hx))]
              have hglw : ((⟨x.stop, m.start⟩ :: (gapsList (m :: ms) ++
                  [⟨((m :: ms).getLast (List.cons_ne_nil m ms)).stop, z.start⟩])).getLast
                  (List.cons_ne_nil _ _)) =
                  (⟨((m :: ms).getLast (List.cons_ne_nil m ms)).stop, z.start⟩ : Range T) := by
                show ((((⟨x.stop, m.start⟩ : Range T) :: gapsList (m :: ms)) ++
                  [(⟨((m :: ms).getLast (List.cons_ne_nil m ms)).stop, z.start⟩ : Range T)]).getLast
                  (by simp)) =
                  (⟨((m :: ms).getLast (List.cons_ne_nil m ms)).stop, z.start⟩ : Range T)
                exact List.getLast_concat _
              rw [hglw]
              rw [if_neg (show ¬ ((⟨((m :: ms).getLast (List.cons_ne_nil m ms)).stop,
                z.start⟩ : Range T).stop = UniversalInterval.SUPREMUM) from
                ne_of_lt (h2' ▸ hz))]
              rw [gaps_bracket]
              show (⟨UniversalInterval.INFINUM, x.stop⟩ : Range T) :: ((m :: ms) ++
                [⟨z.start, UniversalInterval.SUPREMUM⟩]) = x :: ((m :: ms) ++ [z])
              rw [← h1, ← h2']
        · -- only the infimum touched
          have h2' : ¬ (((y :: ys).getLast (List.cons_ne_nil y ys)).stop =
              UniversalInterval.SUPREMUM) := by rw [hgl2] at h2; exact h2
          rw [if_pos h1, if_neg h2, hgl2, gaps_cons_cons]
          show negList (⟨x.stop, y.start⟩ :: (gapsList (y :: ys) ++
            [⟨((y :: ys).getLast (List.cons_ne_nil y ys)).stop,
              UniversalInterval.SUPREMUM⟩])) = x :: y :: ys
          rw [negList_cons]
          rw [if_neg (show ¬ ((⟨x.stop, y.start⟩ : Range T).start =
            UniversalInterval.INFINUM) from ne_of_gt (h1 ▸ hx))]
          have hglw : ((⟨x.stop, y.start⟩ :: (gapsList (y :: ys) ++
              [⟨((y :: ys).getLast (List.cons_ne_nil y ys)).stop,
                UniversalInterval.SUPREMUM⟩])).getLast (List.cons_ne_nil _ _)) =
              (⟨((y :: ys).getLast (List.cons_ne_nil y ys)).stop,
                UniversalInterval.SUPREMUM⟩ : Range T) := by
            show ((((⟨x.stop, y.start⟩ : Range T) :: gapsList (y :: ys)) ++
              [(⟨((y :: ys).getLast (List.cons_ne_nil y ys)).stop,
                UniversalInterval.SUPREMUM⟩ : Range T)]).getLast (by simp)) =
              (⟨((y :: ys).getLast (List.cons_ne_nil y ys)).stop,
                UniversalInterval.SUPREMUM⟩ : Range T)
            exact List.getLast_concat _
          rw [hglw]
          rw [if_pos (show ((⟨((y :: ys).getLast (List.cons_ne_nil y ys)).stop,
            UniversalInterval.SUPREMUM⟩ : Range T).stop = UniversalInterval.SUPREMUM)
            from rfl)]
          rw [gaps_bracket, List.append_nil]
          show (⟨UniversalInterval.INFINUM, x.stop⟩ : Range T) :: (y :: ys) = x :: y :: ys
          rw [← h1]
      · by_cases h2 : ((x :: y :: ys).getLast (List.cons_ne_nil x (y :: ys))).stop =
            UniversalInterval.SUPREMUM
        · -- only the supremum touched; split the tail at its last element
          rcases List.eq_nil_or_concat (y :: ys) with heq | ⟨mid, z, heq⟩
          · cases heq
          · rw [List.concat_eq_append] at heq
            have hglz : ((x :: y :: ys).getLast (List.cons_ne_nil x (y :: ys))) = z := by
              rw [hgl2]
              exact getLast_eq_of_concat _ mid z heq _
            have h2' : z.stop = UniversalInterval.SUPREMUM := by rw [hglz] at h2; exact h2
            have hz : z.start < z.stop := hnd z (by simp [heq])
            rw [if_neg h1, if_pos h2, heq, List.append_nil, gaps_concat]
            show negList (⟨UniversalInterval.INFINUM, x.start⟩ :: (gapsList (x :: mid) ++
              [⟨((x :: mid).getLast (List.cons_ne_nil x mid)).stop, z.start⟩])) =
              x :: (mid ++ [z])
            rw [negList_cons]
            rw [if_pos (show ((⟨UniversalInterval.INFINUM, x.start⟩ : Range T).start =
              UniversalInterval.INFINUM) from rfl)]
            have hglw : ((⟨UniversalInterval.INFINUM, x.start⟩ :: (gapsList (x :: mid) ++
                [⟨((x :: mid).getLast (List.cons_ne_nil x mid)).stop, z.start⟩])).getLast
                (List.cons_ne_nil _ _)) =
                (⟨((x :: mid).getLast (List.cons_ne_nil x mid)).stop, z.start⟩ : Range T) := by
              show ((((⟨UniversalInterval.INFINUM, x.start⟩ : Range T) :: gapsList (x :: mid)) ++
                [(⟨((x :: mid).getLast (List.cons_ne_nil x mid)).stop, z.start⟩ : Range T)]).getLast
                (by simp)) =
                (⟨((x :: mid).getLast (List.cons_ne_nil x mid)).stop, z.start⟩ : Range T)
              exact List.getLast_concat _
            rw [hglw]
            rw [if_neg (show ¬ ((⟨((x :: mid).getLast (List.cons_ne_nil x mid)).stop,
              z.start⟩ : Range T).stop = UniversalInterval.SUPREMUM) from
              ne_of_lt (h2' ▸ hz))]
            rw [gaps_bracket]
            show (x :: mid) ++ [(⟨z.start, UniversalInterval.SUPREMUM⟩ : Range T)] =
              x :: (mid ++ [z])
            rw [← h2']
            rfl
        · -- neither extreme touched
          rw [if_neg h1, if_neg h2]
          show negList (⟨UniversalInterval.INFINUM, x.start⟩ ::
            (gapsList (x :: y :: ys) ++
              [⟨((x :: y :: ys).getLast (List.cons_ne_nil x (y :: ys))).stop,
                UniversalInterval.SUPREMUM⟩])) = x :: y :: ys
          rw [negList_cons]
          rw [if_pos (show ((⟨UniversalInterval.INFINUM, x.start⟩ : Range T).start =
            UniversalInterval.INFINUM) from rfl)]
          have hglw : ((⟨UniversalInterval.INFINUM, x.start⟩ ::
              (gapsList (x :: y :: ys) ++
                [⟨((x :: y :: ys).getLast (List.cons_ne_nil x (y :: ys))).stop,
                  UniversalInterval.SUPREMUM⟩])).getLast (List.cons_ne_nil _ _)) =
              (⟨((x :: y :: ys).getLast (List.cons_ne_nil x (y :: ys))).stop,
                UniversalInterval.SUPREMUM⟩ : Range T) := by
            show ((((⟨UniversalInterval.INFINUM, x.start⟩ : Range T) ::
              gapsList (x :: y :: ys)) ++
              [(⟨((x :: y :: ys).getLast (List.cons_ne_nil x (y :: ys))).stop,
                UniversalInterval.SUPREMUM⟩ : Range T)]).getLast (by simp)) =
              (⟨((x :: y :: ys).getLast (List.cons_ne_nil x (y :: ys))).stop,
                UniversalInterval.SUPREMUM⟩ : Range T)
            exact List.getLast_concat _
          rw [hglw]
          rw [if_pos (show ((⟨((x :: y :: ys).getLast
            (List.cons_ne_nil x (y :: ys))).stop,
            UniversalInterval.SUPREMUM⟩ : Range T).stop = UniversalInterval.SUPREMUM)
            from rfl)]
          rw [gaps_bracket, List.append_nil]
          rfl




/-! ### `intersect` and `retain_intersecting` preserve the invariant -/

theorem intersect_valid {T : Type} [LinearOrder T] (l : List (Range T)) (hv : ValidList l)
    (f : Range T) (hf : f.start < f.stop) :
    ValidList ((IntervalSet.intersect ⟨l⟩ f).intervals) := by
  have hred : (IntervalSet.intersect ⟨l⟩ f).intervals =
      l.filterMap (fun x => interval_intersection x f) := rfl
  rw [hred]
  constructor
  · intro iv hmem
    rcases List.mem_filterMap.mp hmem with ⟨x, hx, hsome⟩
    exact (interval_intersection_some x f (hv.1 x hx) hf iv hsome).2
  · rw [List.pairwise_filterMap]
    refine List.Pairwise.imp_of_mem ?_ hv.2
    intro a b ha hb hab r hr r2 hr2
    have h1 := interval_intersection_subset_left a f r (Option.mem_def.mp hr)
    have h2 := interval_intersection_subset_left b f r2 (Option.mem_def.mp hr2)
    exact lt_of_le_of_lt h1.2 (lt_of_lt_of_le hab h2.1)

theorem retain_valid {T : Type} [LinearOrder T] (l : List (Range T)) (hv : ValidList l)
    (f : Range T) :
    ValidList ((IntervalSet.retain_intersecting ⟨l⟩ f).intervals) := by
  have hred : (IntervalSet.retain_intersecting ⟨l⟩ f).intervals =
      l.filter (fun x => (interval_intersection x f).isSome) := rfl
  rw [hred]
  exact ⟨fun iv hmem => hv.1 _ ((List.filter_sublist l).subset hmem),
    List.Pairwise.sublist (List.filter_sublist l) hv.2⟩

/-! ### Measure accounting -/

theorem msum_gaps_telescope (l : List (Range Int)) :
    ∀ (x : Range Int),
      ((x :: l).map (fun r => r.stop - r.start)).sum +
        ((gapsList (x :: l)).map (fun r => r.stop - r.start)).sum =
        ((x :: l).getLast (List.cons_ne_nil x l)).stop - x.start := by
  induction l with
  | nil =>
    intro x
    simp [gaps_single]
  | cons y ys ih =>
    intro x
    rw [gaps_cons_cons]
    have hgl : ((x :: y :: ys).getLast (List.cons_ne_nil x (y :: ys))) =
        ((y :: ys).getLast (List.cons_ne_nil y ys)) := List.getLast_cons _
    rw [hgl]
    have := ih y
    simp only [List.map_cons, List.sum_cons] at this ⊢
    omega

theorem msum_nonneg : ∀ (l : List (Range Int)), (∀ iv ∈ l, iv.start < iv.stop) →
    0 ≤ (l.map (fun r => r.stop - r.start)).sum := by
  intro l
  induction l with
  | nil => simp
  | cons x xs ih =>
    intro hnd
    simp only [List.map_cons, List.sum_cons]
    have h1 : x.start < x.stop := hnd x (by simp)
    have h2 : 0 ≤ (xs.map (fun r => r.stop - r.start)).sum :=
      ih (fun iv hm => hnd iv (List.mem_cons_of_mem _ hm))
    omega

theorem measure_nonneg (l : List (Range Int)) (hnd : ∀ iv ∈ l, iv.start < iv.stop) :
    0 ≤ (IntervalSet.measure ⟨l⟩) :=
  msum_nonneg l hnd

end LkMath

namespace LkMath

/-! ### Bit-pattern order agrees with IEEE magnitude on non-negative patterns -/

theorem floatMag_strictMono (F : Nat) : StrictMono (floatMag F) := by
  intro b1 b2 h
  have hF : 0 < 2 ^ F := Nat.pos_pow_of_pos F (by norm_num)
  have hb1 : 2 ^ F * (b1 / 2 ^ F) + b1 % 2 ^ F = b1 := Nat.div_add_mod b1 (2 ^ F)
  have hb2 : 2 ^ F * (b2 / 2 ^ F) + b2 % 2 ^ F = b2 := Nat.div_add_mod b2 (2 ^ F)
  have hm1 : b1 % 2 ^ F < 2 ^ F := Nat.mod_lt _ hF
  have hm2 : b2 % 2 ^ F < 2 ^ F := Nat.mod_lt _ hF
  have hde : b1 / 2 ^ F ≤ b2 / 2 ^ F := Nat.div_le_div_right h.le
  unfold floatMag
  set q1 := b1 / 2 ^ F with hq1
  set q2 := b2 / 2 ^ F with hq2
  set r1 := b1 % 2 ^ F with hr1
  set r2 := b2 % 2 ^ F with hr2
  clear_value q1 q2 r1 r2
  clear hq1 hq2 hr1 hr2
  rcases eq_or_lt_of_le hde with heq | hlt
  · have hmm : r1 < r2 := by
      rw [← heq] at hb2
      omega
    rcases Nat.eq_zero_or_pos q1 with hz | hp
    · rw [if_pos hz, if_pos (heq ▸ hz)]
      exact hmm
    · have hz1 : ¬ (q1 = 0) := by omega
      have hz2 : ¬ (q2 = 0) := by omega
      rw [if_neg hz1, if_neg hz2, ← heq]
      exact mul_lt_mul_of_pos_right (by omega) (pow_pos (by norm_num) _)
  · have he2 : ¬ (q2 = 0) := by omega
    rw [if_neg he2]
    have h1 : (if q1 = 0 then r1 else (2 ^ F + r1) * 2 ^ (q1 - 1)) <
        2 ^ F * 2 ^ q1 := by
      split_ifs with hz
      · rw [hz, pow_zero, mul_one]
        exact hm1
      · have hsplit : q1 - 1 + 1 = q1 := by omega
        calc (2 ^ F + r1) * 2 ^ (q1 - 1)
            < (2 ^ F + 2 ^ F) * 2 ^ (q1 - 1) :=
              mul_lt_mul_of_pos_right (by omega) (pow_pos (by norm_num) _)
          _ = 2 ^ F * (2 ^ (q1 - 1) * 2) := by ring
          _ = 2 ^ F * 2 ^ q1 := by rw [← pow_succ, hsplit]
    have h2 : 2 ^ F * 2 ^ q1 ≤ 2 ^ F * 2 ^ (q2 - 1) :=
      mul_le_mul_left' (pow_le_pow_right₀ (by norm_num) (by omega)) _
    have h3 : 2 ^ F * 2 ^ (q2 - 1) ≤ (2 ^ F + r2) * 2 ^ (q2 - 1) :=
      mul_le_mul_right' (by omega) _
    exact lt_of_lt_of_le h1 (le_trans h2 h3)

theorem ordF32_agree_of_nonneg (a b : Nat) (ha : a < 2 ^ 31) (hb : b < 2 ^ 31) :
    (ordF32Cmp a b = Ordering.lt ↔ f32ValScaled a < f32ValScaled b) ∧
    (ordF32Cmp a b = Ordering.eq ↔ f32ValScaled a = f32ValScaled b) := by
  have hva : f32ValScaled a = (floatMag 23 a : Int) := by
    unfold f32ValScaled
    rw [if_pos (Nat.div_eq_of_lt ha), Nat.mod_eq_of_lt ha]
  have hvb : f32ValScaled b = (floatMag 23 b : Int) := by
    unfold f32ValScaled
    rw [if_pos (Nat.div_eq_of_lt hb), Nat.mod_eq_of_lt hb]
  have hca : ordF32Cmp a b = ordCmp (a : Int) (b : Int) := by
    unfold ordF32Cmp toSignedBits32
    rw [if_pos ha, if_pos hb]
  rw [hva, hvb, hca]
  constructor
  · rw [ordCmp_eq_lt, Int.ofNat_lt, Int.ofNat_lt]
    exact (floatMag_strictMono 23).lt_iff_lt.symm
  · rw [ordCmp_eq_eq, Int.ofNat_inj, Nat.cast_inj]
    exact ((floatMag_strictMono 23).injective.eq_iff).symm

theorem ordF64_agree_of_nonneg (a b : Nat) (ha : a < 2 ^ 63) (hb : b < 2 ^ 63) :
    (ordF64Cmp a b = Ordering.lt ↔ f64ValScaled a < f64ValScaled b) ∧
    (ordF64Cmp a b = Ordering.eq ↔ f64ValScaled a = f64ValScaled b) := by
  have hva : f64ValScaled a = (floatMag 52 a : Int) := by
    unfold f64ValScaled
    rw [if_pos (Nat.div_eq_of_lt ha), Nat.mod_eq_of_lt ha]
  have hvb : f64ValScaled b = (floatMag 52 b : Int) := by
    unfold f64ValScaled
    rw [if_pos (Nat.div_eq_of_lt hb), Nat.mod_eq_of_lt hb]
  have hca : ordF64Cmp a b = ordCmp (a : Int) (b : Int) := by
    unfold ordF64Cmp toSignedBits64
    rw [if_pos ha, if_pos hb]
  rw [hva, hvb, hca]
  constructor
  · rw [ordCmp_eq_lt, Int.ofNat_lt, Int.ofNat_lt]
    exact (floatMag_strictMono 52).lt_iff_lt.symm
  · rw [ordCmp_eq_eq, Int.ofNat_inj, Nat.cast_inj]
    exact ((floatMag_strictMono 52).injective.eq_iff).symm





theorem span_accounting (l : List (Range Int)) :
    ∀ bnd, (IntervalSet.bounds ⟨l⟩) = some bnd →
      bnd.stop - bnd.start -
        (IntervalSet.measure ((⟨l⟩ : IntervalSet Int).negation_within_bounds)) =
        IntervalSet.measure ⟨l⟩ := by
  cases l with
  | nil =>
    intro bnd h
    exact Option.noConfusion h
  | cons x xs =>
    intro bnd h
    have hb : some (⟨x.start, ((x :: xs).getLast (List.cons_ne_nil x xs)).stop⟩ :
        Range Int) = some bnd := h
    obtain rfl := (Option.some_inj.mp hb).symm
    have ht := msum_gaps_telescope xs x
    show ((x :: xs).getLast (List.cons_ne_nil x xs)).stop - x.start -
        ((gapsList (x :: xs)).map (fun r => r.stop - r.start)).sum =
        ((x :: xs).map (fun r => r.stop - r.start)).sum
    omega

/-! ## Claim theorems -/

/-- C1: for every `IntervalSet` satisfying the documented invariant and every
non-degenerate range `r`, after `union(r)` the set covers exactly the old
coverage plus `r`: `contains v` afterwards is true iff it was true before or
`r.start ≤ v < r.end`. -/
theorem union_covers_old_or_new {T : Type} [LinearOrder T] (S : IntervalSet T)
    (hS : S.Invariant) (r : Range T) (hr : r.start < r.stop) (v : T) :
    ((S.union r).contains v = true) ↔
      (S.contains v = true ∨ (r.start ≤ v ∧ v < r.stop)) := by
  have hv : ValidList S.intervals := (invariant_iff_validList S).mp hS
  obtain ⟨hval, hcov⟩ := union_valid_cov S.intervals hv r
  have hA : ((S.union r).contains v = true) ↔ covL ((S.union r).intervals) v :=
    contains_iff_covL _ hval v
  have hB : (S.contains v = true) ↔ covL S.intervals v :=
    contains_iff_covL _ hv v
  rw [hA, hB]
  exact hcov hr v

theorem union_covers_old_or_new_witness :
    (((⟨[⟨(0 : Int), 2⟩]⟩ : IntervalSet Int).union ⟨4, 6⟩).contains 5 = true) ↔
      ((⟨[⟨(0 : Int), 2⟩]⟩ : IntervalSet Int).contains 5 = true ∨
        ((4 : Int) ≤ 5 ∧ (5 : Int) < 6)) :=
  union_covers_old_or_new ⟨[⟨0, 2⟩]⟩ (by decide) ⟨4, 6⟩ (by decide) 5

/-- C2 counterexample: `intersect` with the degenerate filter `5..3` applied to
the valid set `{[0,10)}` stores the degenerate interval `5..3`, breaking the
invariant — so not every mutation with an arbitrary (possibly degenerate)
argument preserves the invariant or is a no-op. -/
theorem intersect_degenerate_breaks_invariant :
    (⟨[⟨(0 : Int), 10⟩]⟩ : IntervalSet Int).Invariant ∧
    ((⟨[⟨(0 : Int), 10⟩]⟩ : IntervalSet Int).intersect ⟨5, 3⟩).intervals = [⟨5, 3⟩] ∧
    ¬ ((⟨[⟨(0 : Int), 10⟩]⟩ : IntervalSet Int).intersect ⟨5, 3⟩).Invariant := by
  refine ⟨by decide, by decide, ?_⟩
  intro h
  have := h.2.2 ⟨5, 3⟩ (by decide)
  exact absurd this (by decide)

/-- C2 (amended): on a set satisfying the invariant, `union` (any argument,
degenerate ones are a no-op) and `retain_intersecting` (any argument) preserve
the invariant, and `intersect` preserves it for every non-degenerate filter;
a degenerate filter passed to `intersect` may break it. -/
theorem mutations_preserve_invariant {T : Type} [LinearOrder T] (S : IntervalSet T)
    (hS : S.Invariant) :
    (∀ r : Range T, (S.union r).Invariant) ∧
    (∀ r : Range T, (S.retain_intersecting r).Invariant) ∧
    (∀ r : Range T, r.start < r.stop → (S.intersect r).Invariant) := by
  have hv := (invariant_iff_validList S).mp hS
  refine ⟨?_, ?_, ?_⟩
  · intro r
    exact (invariant_iff_validList _).mpr (union_valid_cov S.intervals hv r).1
  · intro r
    exact (invariant_iff_validList _).mpr (retain_valid S.intervals hv r)
  · intro r hr
    exact (invariant_iff_validList _).mpr (intersect_valid S.intervals hv r hr)

theorem mutations_preserve_invariant_witness :
    ((⟨[⟨(0 : Int), 2⟩]⟩ : IntervalSet Int).union ⟨1, 5⟩).Invariant ∧
    ((⟨[⟨(0 : Int), 2⟩]⟩ : IntervalSet Int).retain_intersecting ⟨1, 5⟩).Invariant ∧
    ((⟨[⟨(0 : Int), 2⟩]⟩ : IntervalSet Int).intersect ⟨1, 5⟩).Invariant :=
  ⟨(mutations_preserve_invariant ⟨[⟨0, 2⟩]⟩ (by decide)).1 ⟨1, 5⟩,
   (mutations_preserve_invariant ⟨[⟨0, 2⟩]⟩ (by decide)).2.1 ⟨1, 5⟩,
   (mutations_preserve_invariant ⟨[⟨0, 2⟩]⟩ (by decide)).2.2 ⟨1, 5⟩ (by decide)⟩

/-- C3: over any domain providing the `UniversalInterval` contract, full-domain
negation is an involution on every set satisfying the invariant, including the
boundary cases where the set is empty or touches the domain extremes. -/
theorem negation_involution {T : Type} [LinearOrder T] [UniversalInterval T]
    (S : IntervalSet T) (hS : S.Invariant) : S.negation.negation = S := by
  have hnd : ∀ iv ∈ S.intervals, iv.start < iv.stop :=
    ((invariant_iff_validList S).mp hS).1
  show (⟨negList (negList S.intervals)⟩ : IntervalSet T) = S
  rw [negList_involution S.intervals hnd]

theorem negation_involution_witness : exampleI32.negation.negation = exampleI32 :=
  negation_involution exampleI32 (by decide)

/-- C4: `interval_intersection`, after normalizing so that `a0 ≤ b0`, returns
`none` exactly when `a1 ≤ b0` (touching ranges intersect to nothing, never to a
degenerate point range) and `some [b0, min a1 b1)` otherwise; swapping the
arguments when the starts are strictly ordered gives the same result, and
`[0,2) ∩ [2,3) = none` concretely. -/
theorem interval_intersection_characterization {T : Type} [LinearOrder T]
    (a b : Range T) (h : a.start ≤ b.start) :
    (interval_intersection a b = none ↔ a.stop ≤ b.start) ∧
    (b.start < a.stop → interval_intersection a b = some ⟨b.start, min a.stop b.stop⟩) ∧
    (a.start < b.start → interval_intersection b a = interval_intersection a b) ∧
    interval_intersection (⟨0, 2⟩ : Range Int) ⟨2, 3⟩ = none := by
  refine ⟨?_, ?_, ?_, by decide⟩
  · rw [interval_intersection_left a b h]
    split_ifs with hc
    · simp [hc]
    · simp [hc]
  · intro hlt
    rw [interval_intersection_left a b h, if_neg (not_le.mpr hlt)]
  · intro hlt
    rw [interval_intersection_swap b a hlt, interval_intersection_left a b h]

theorem interval_intersection_characterization_witness :
    (interval_intersection (⟨0, 2⟩ : Range Int) ⟨1, 3⟩ = none ↔ (2 : Int) ≤ 1) ∧
    ((1 : Int) < 2 →
      interval_intersection (⟨0, 2⟩ : Range Int) ⟨1, 3⟩ = some ⟨1, min 2 3⟩) ∧
    ((0 : Int) < 1 →
      interval_intersection (⟨1, 3⟩ : Range Int) ⟨0, 2⟩ =
        interval_intersection (⟨0, 2⟩ : Range Int) ⟨1, 3⟩) ∧
    interval_intersection (⟨0, 2⟩ : Range Int) ⟨2, 3⟩ = none :=
  interval_intersection_characterization (⟨0, 2⟩ : Range Int) ⟨1, 3⟩ (by decide)

/-- C5: `interval_union`, after normalizing so that `a0 ≤ b0`, returns `none`
exactly when `a1 < b0` (a strict gap) and `some [a0, max a1 b1)` whenever
`b0 ≤ a1` — overlapping or exactly touching ranges coalesce; swapping the
arguments when the starts are strictly ordered gives the same result, and
`[0,2) ∪ [2,3) = some [0,3)` concretely. -/
theorem interval_union_characterization {T : Type} [LinearOrder T]
    (a b : Range T) (h : a.start ≤ b.start) :
    (interval_union a b = none ↔ a.stop < b.start) ∧
    (b.start ≤ a.stop → interval_union a b = some ⟨a.start, max a.stop b.stop⟩) ∧
    (a.start < b.start → interval_union b a = interval_union a b) ∧
    interval_union (⟨0, 2⟩ : Range Int) ⟨2, 3⟩ = some ⟨0, 3⟩ := by
  refine ⟨?_, ?_, ?_, by decide⟩
  · rw [interval_union_left a b h]
    split_ifs with hc
    · simp [hc]
    · simp [hc]
  · intro hle
    rw [interval_union_left a b h, if_neg (not_lt.mpr hle)]
  · intro hlt
    rw [interval_union_swap b a hlt, interval_union_left a b h]

theorem interval_union_characterization_witness :
    (interval_union (⟨0, 2⟩ : Range Int) ⟨1, 3⟩ = none ↔ (2 : Int) < 1) ∧
    ((1 : Int) ≤ 2 →
      interval_union (⟨0, 2⟩ : Range Int) ⟨1, 3⟩ = some ⟨0, max 2 3⟩) ∧
    ((0 : Int) < 1 →
      interval_union (⟨1, 3⟩ : Range Int) ⟨0, 2⟩ =
        interval_union (⟨0, 2⟩ : Range Int) ⟨1, 3⟩) ∧
    interval_union (⟨0, 2⟩ : Range Int) ⟨2, 3⟩ = some ⟨0, 3⟩ :=
  interval_union_characterization (⟨0, 2⟩ : Range Int) ⟨1, 3⟩ (by decide)

/-- C6: on a set satisfying the invariant, `containing_interval v` returns
`some` of exactly the (unique) stored interval with `start ≤ v < end` and
`none` otherwise, `contains` is true exactly in the `some` case, and on the
set built from `[0,2)` and `[1,3)` the boundary behaviour is
`contains 0 = contains 2 = true`, `contains 3 = contains (-1) = false`. -/
theorem containing_interval_contains_correct {T : Type} [LinearOrder T]
    (S : IntervalSet T) (hS : S.Invariant) (v : T) :
    (∀ iv, S.containing_interval v = some iv ↔
      (iv ∈ S.intervals ∧ iv.start ≤ v ∧ v < iv.stop)) ∧
    (S.contains v = true ↔ ∃ iv ∈ S.intervals, iv.start ≤ v ∧ v < iv.stop) ∧
    ((((IntervalSet.new Int).union ⟨0, 2⟩).union ⟨1, 3⟩).contains 0 = true ∧
     (((IntervalSet.new Int).union ⟨0, 2⟩).union ⟨1, 3⟩).contains 2 = true ∧
     (((IntervalSet.new Int).union ⟨0, 2⟩).union ⟨1, 3⟩).contains 3 = false ∧
     (((IntervalSet.new Int).union ⟨0, 2⟩).union ⟨1, 3⟩).contains (-1) = false) := by
  have hv := (invariant_iff_validList S).mp hS
  exact ⟨fun iv => containing_interval_spec S.intervals hv v iv,
    contains_iff_covL S.intervals hv v, by decide, by decide, by decide, by decide⟩

theorem containing_interval_contains_correct_witness :
    (⟨[⟨(0 : Int), 2⟩]⟩ : IntervalSet Int).containing_interval 1 = some ⟨0, 2⟩ ↔
      ((⟨(0 : Int), 2⟩ : Range Int) ∈ [(⟨(0 : Int), 2⟩ : Range Int)] ∧
        (0 : Int) ≤ 1 ∧ (1 : Int) < 2) :=
  (containing_interval_contains_correct ⟨[⟨0, 2⟩]⟩ (by decide) 1).1 ⟨0, 2⟩

/-- C7 counterexample: on the non-NaN bit patterns of `-2.0f32` (0xC0000000)
and `-1.0f32` (0xBF800000) the adapter's bit-comparison disagrees with IEEE
numeric comparison, and `-0.0`/`+0.0` are IEEE-equal but adapter-distinct —
the deviation is not confined to NaN. -/
theorem ord_float_negative_order_mismatch :
    f32IsNaN 3221225472 = false ∧ f32IsNaN 3212836864 = false ∧
    (3221225472 : Nat) < 2 ^ 32 ∧ (3212836864 : Nat) < 2 ^ 32 ∧
    f32ValScaled 3221225472 < f32ValScaled 3212836864 ∧
    ordF32Cmp 3221225472 3212836864 ≠ Ordering.lt ∧
    f32IsNaN 2147483648 = false ∧ f32IsNaN 0 = false ∧
    f32ValScaled 2147483648 = f32ValScaled 0 ∧
    ordF32Cmp 2147483648 0 ≠ Ordering.eq := by decide

/-- C7 (amended): the ordering adapter agrees with IEEE numeric comparison on
non-NaN values whose sign bit is clear (non-negative values, `-0.0` excluded):
for such bit patterns, `OrdF32`/`OrdF64` compare `lt` iff the IEEE values do
and `eq` iff the IEEE values are equal; on negative values the bit-pattern
order deviates from IEEE (it is reversed between two negatives, and `-0.0`
differs from `+0.0`). -/
theorem ord_float_agrees_nonnegative :
    (∀ a b : Nat, a < 2 ^ 31 → b < 2 ^ 31 → f32IsNaN a = false → f32IsNaN b = false →
      ((ordF32Cmp a b = Ordering.lt ↔ f32ValScaled a < f32ValScaled b) ∧
       (ordF32Cmp a b = Ordering.eq ↔ f32ValScaled a = f32ValScaled b))) ∧
    (∀ a b : Nat, a < 2 ^ 63 → b < 2 ^ 63 → f64IsNaN a = false → f64IsNaN b = false →
      ((ordF64Cmp a b = Ordering.lt ↔ f64ValScaled a < f64ValScaled b) ∧
       (ordF64Cmp a b = Ordering.eq ↔ f64ValScaled a = f64ValScaled b))) :=
  ⟨fun a b ha hb _ _ => ordF32_agree_of_nonneg a b ha hb,
   fun a b ha hb _ _ => ordF64_agree_of_nonneg a b ha hb⟩

theorem ord_float_agrees_nonnegative_witness :
    (ordF32Cmp 1065353216 1073741824 = Ordering.lt ↔
      f32ValScaled 1065353216 < f32ValScaled 1073741824) ∧
    (ordF32Cmp 1065353216 1073741824 = Ordering.eq ↔
      f32ValScaled 1065353216 = f32ValScaled 1073741824) :=
  ord_float_agrees_nonnegative.1 1065353216 1073741824 (by decide) (by decide)
    (by decide) (by decide)

/-- C8 counterexample: with `i32` wrapping arithmetic, on `a = [0,1)` and
`b = [65536, 65537)` the products `(b0-a0)*(b1-a1) = 2^32` wrap to `0`, so the
test returns `true` although neither range dominates the other (the exact
product is positive). -/
theorem wrapping_product_not_domination :
    dominates_or_is_dominated_by_i32 ⟨0, 1⟩ ⟨65536, 65537⟩ = true ∧
    dominates (⟨(0 : Int), 1⟩ : Range Int) ⟨65536, 65537⟩ = false ∧
    dominates (⟨(65536 : Int), 65537⟩ : Range Int) ⟨0, 1⟩ = false ∧
    dominates_or_is_dominated_by ⟨0, 1⟩ ⟨65536, 65537⟩ = false := by decide

/-- C8 (amended): over the exact (unbounded) integers — i.e. whenever the
subtractions and the product do not overflow the fixed-width domain —
`dominates_or_is_dominated_by a b` is true exactly when
`(b0-a0)*(b1-a1) ≤ 0`, which is exactly when `a` dominates `b` or `b`
dominates `a`. -/
theorem dominates_product_characterization (a b : Range Int) :
    (dominates_or_is_dominated_by a b = true ↔
      (b.start - a.start) * (b.stop - a.stop) ≤ 0) ∧
    (dominates_or_is_dominated_by a b = true ↔
      (dominates a b = true ∨ dominates b a = true)) := by
  constructor
  · simp [dominates_or_is_dominated_by]
  · simp only [dominates_or_is_dominated_by, dominates, Bool.and_eq_true,
      decide_eq_true_eq, mul_nonpos_iff]
    omega

/-- C9: every `IntervalSet` over the exact integer domain satisfying the
invariant has non-negative measure, and when it is non-empty the overall span
equals covered length plus internal gaps:
`bounds.end - bounds.start - negation_within_bounds.measure = measure`. -/
theorem measure_nonneg_and_span_accounting (S : IntervalSet Int) (hS : S.Invariant) :
    0 ≤ S.measure ∧
    ∀ bnd, S.bounds = some bnd →
      bnd.stop - bnd.start - S.negation_within_bounds.measure = S.measure := by
  have hv := (invariant_iff_validList S).mp hS
  exact ⟨measure_nonneg S.intervals hv.1, span_accounting S.intervals⟩

theorem measure_nonneg_and_span_accounting_witness :
    0 ≤ (⟨[⟨(0 : Int), 2⟩, ⟨5, 7⟩]⟩ : IntervalSet Int).measure ∧
    (7 : Int) - 0 -
        (⟨[⟨(0 : Int), 2⟩, ⟨5, 7⟩]⟩ : IntervalSet Int).negation_within_bounds.measure =
      (⟨[⟨(0 : Int), 2⟩, ⟨5, 7⟩]⟩ : IntervalSet Int).measure :=
  ⟨(measure_nonneg_and_span_accounting ⟨[⟨0, 2⟩, ⟨5, 7⟩]⟩ (by decide)).1,
   (measure_nonneg_and_span_accounting ⟨[⟨0, 2⟩, ⟨5, 7⟩]⟩ (by decide)).2
     ⟨0, 7⟩ (by decide)⟩

/-- C10: over the bounded domain `i32`, no interval set — stored intervals are
half-open with `end ≤ i32::MAX` by representability — ever reports the
supremum `i32::MAX` as covered; in particular the full-domain complement of
the empty set is the single interval `[i32::MIN, i32::MAX)` and does not
contain `i32::MAX`. -/
theorem supremum_never_contained :
    (∀ s : IntervalSet I32, s.contains i32Max = false) ∧
    (IntervalSet.new I32).negation.intervals = [⟨i32Min, i32Max⟩] ∧
    (IntervalSet.new I32).negation.contains i32Max = false := by
  refine ⟨?_, by decide, by decide⟩
  intro s
  rcases h : s.containing_interval i32Max with _ | a
  · unfold IntervalSet.contains
    rw [h]
    rfl
  · exfalso
    unfold IntervalSet.containing_interval at h
    split at h
    case _ b heq =>
      split at h
      case isTrue hcond =>
        have h1 : i32Max < b.stop := hcond.2
        have h2 : (i32Max : I32).val < b.stop.val := h1
        have h3 : b.stop.val < 2 ^ 31 := b.stop.2.2
        have h4 : (i32Max : I32).val = 2 ^ 31 - 1 := rfl
        omega
      case isFalse hcond => exact Option.noConfusion h
    case _ heq => exact Option.noConfusion h


end LkMath
